import Mathlib

/-!
Shallow embedding of `src/visualization/motion_planning_tasks/src/remote_task_model.cpp`
(the remote task model of the motion-planning-tasks rviz plugin): the tree-node
store (`RemoteTaskModel::Node`), the synchronization engine
(`processStageDescriptions` / `processStageStatistics`), the per-stage solution
ranking store (`RemoteSolutionModel` with `processSolutionIDs`, `sortInternal`,
`isVisible`) and the observer-facing rename (`RemoteTaskModel::setData`).

Modelling conventions:
* `float` costs carry no arithmetic in this code, only IEEE comparisons and
  assignments, so they are embedded exactly as the inductive `Cost` below
  (`nan`, `+inf`, `-inf`, or a finite value, finite floats injecting into `ℚ`);
  `Cost.lt` is the IEEE `<` restricted to these values.
* `uint32_t` stage/solution ids become `Nat`: the code never does arithmetic on
  ids (only comparisons), and ranks grow by one per list element, so overflow
  can never matter at representable input sizes.
* `QString` becomes `String`; `QString::compare` becomes the lexicographic
  three-way comparison `strComp` derived from the linear order on `String`.
* the pointer-linked node arena (`id_to_stage_`, `Node::children_`,
  `Node::parent_`) becomes an association list from stage id to `Node`, with a
  node's children kept as the ordered list of their ids; this is faithful
  because a node is registered under exactly one id at creation and ids are
  never re-bound.
* Qt signals become an explicit list of emitted `Notif` events; a
  `beginInsertRows`/`endInsertRows` pair is one `rowsInserted` event and a
  `dataChanged(topLeft, bottomRight)` emission is one `dataChanged` event
  carrying the target node (`none` for an invalid `QModelIndex`) and the column
  range.  `layoutAboutToBeChanged`/`layoutChanged` and the persistent-index
  remap of `sortInternal` concern no claim and are omitted.
* `Q_ASSERT` in `processSolutionIDs` guards a lookup whose failure makes the
  next line dereference `end()` (undefined behaviour in release builds, abort
  in debug builds), so that function returns `Option` with `none` for the
  assertion-failure branch.  The `Q_ASSERT(n->parent_ == parent)` in
  `processStageDescriptions` is a plain release-mode no-op (the following code
  is well defined), and is modelled as such.
-/

namespace RemoteTaskModelSpec

/-- IEEE float values as used by this code: NaN, the two infinities, or a
finite value (finite floats embed exactly into `ℚ`). -/
inductive Cost where
  | nan : Cost
  | inf : Cost
  | negInf : Cost
  | fin : ℚ → Cost
deriving DecidableEq, Repr

namespace Cost

/-- `std::isnan` on an embedded float. -/
def isNaN : Cost → Bool
  | .nan => true
  | _ => false

/-- IEEE `<` on embedded floats: any comparison with NaN is false,
`+inf < +inf` and `-inf < -inf` are false. -/
def lt : Cost → Cost → Bool
  | .nan, _ => false
  | _, .nan => false
  | .negInf, .negInf => false
  | .negInf, _ => true
  | _, .negInf => false
  | .inf, _ => false
  | .fin _, .inf => true
  | .fin a, .fin b => decide (a < b)

end Cost

/-- Lexicographic three-way string comparison, mirroring `QString::compare`
(negative, zero, positive). -/
def strComp (a b : String) : Int :=
  if a < b then -1 else if b < a then 1 else 0

/-- `RemoteSolutionModel::Data`: one solution record of a stage's solution
ranking store. -/
structure SolData where
  id : Nat
  cost : Cost
  creation_rank : Nat
  cost_rank : Nat
  name : String
deriving DecidableEq, Repr

/-- `Qt::SortOrder`. -/
inductive SortOrder where
  | asc : SortOrder
  | desc : SortOrder
deriving DecidableEq, Repr

/-- `RemoteSolutionModel`: per-stage solution ranking store.  `sorted_` holds
the records of the derived view (the C++ vector of iterators into `data_`,
flattened to the records themselves).  The header of this file is not part of
the sources; the field defaults in `initSolutionModel` are therefore modelled
from the spec. -/
structure RemoteSolutionModel where
  data_ : List SolData
  sorted_ : List SolData
  sort_column_ : Int
  sort_order_ : SortOrder
  max_cost_ : Cost
deriving DecidableEq, Repr

/-- Modelled from the spec: the constructor state of a `RemoteSolutionModel`
(the member initializers live in the missing header).  No records, no active
sort column ("absent an active sort column, the view is filtered-natural
order"), ascending order, and a cost ceiling that is effectively unbounded. -/
def initSolutionModel : RemoteSolutionModel :=
  { data_ := []
    sorted_ := []
    sort_column_ := -1
    sort_order_ := .asc
    max_cost_ := .inf }

namespace RemoteSolutionModel

/-- `RemoteSolutionModel::isVisible`: a record is visible iff its cost is NaN
or IEEE-strictly below the cost ceiling `max_cost_`. -/
def isVisible (m : RemoteSolutionModel) (item : SolData) : Bool :=
  item.cost.isNaN || item.cost.lt m.max_cost_

end RemoteSolutionModel

/-- Insert `x` into `l` before the first element `y` with `less x y`
(insertion step of `sortBy`). -/
def insertBy (less : α → α → Bool) (x : α) : List α → List α
  | [] => [x]
  | y :: l => if less x y then x :: y :: l else y :: insertBy less x l

/-- Insertion sort by a boolean comparator.  `std::sort` guarantees only a
weakly-sorted result, but every comparator this file sorts by is a strict
total order on the elements actually present (creation ranks are pairwise
distinct in reachable stores, and id-rank pairs are compared by id), and then
the sorted permutation is unique, so any correct sort is faithful. -/
def sortBy (less : α → α → Bool) : List α → List α
  | [] => []
  | x :: l => insertBy less x (sortBy less l)

/-- The primary comparison (`comp` before the tie-break) of
`RemoteSolutionModel::sortInternal`'s lambda: by `cost_rank` for column 1
("cost"), by name for column 2 ("name"), otherwise 0. -/
def keyComp (sort_column : Int) (left right : SolData) : Int :=
  if sort_column = 1 then
    if left.cost_rank < right.cost_rank then -1
    else if right.cost_rank < left.cost_rank then 1
    else 0
  else if sort_column = 2 then strComp left.name right.name
  else 0

/-- The full three-way comparison of `RemoteSolutionModel::sortInternal`'s
lambda: the primary comparison, with ties broken by `creation_rank` (`-1` if
the left one is smaller, else `1`). -/
def cmpData (sort_column : Int) (left right : SolData) : Int :=
  if keyComp sort_column left right = 0 then
    (if left.creation_rank < right.creation_rank then -1 else 1)
  else keyComp sort_column left right

/-- The boolean comparator handed to `std::sort`: `comp < 0` for ascending
order and `comp >= 0` for descending order. -/
def lessData (sort_column : Int) (sort_order : SortOrder) (left right : SolData) : Bool :=
  match sort_order with
  | .asc => cmpData sort_column left right < 0
  | .desc => cmpData sort_column left right ≥ 0

namespace RemoteSolutionModel

/-- `RemoteSolutionModel::sortInternal`: rebuild `sorted_` from `data_` by
filtering to visible records and, when a sort column is active
(`sort_column_ >= 0`), sorting with the comparator above.  The
layout-changed bracket and persistent-index remap concern no claim and are
omitted. -/
def sortInternal (m : RemoteSolutionModel) : RemoteSolutionModel :=
  let visible := m.data_.filter (fun d => m.isVisible d)
  let s := if m.sort_column_ ≥ 0 then sortBy (lessData m.sort_column_ m.sort_order_) visible
           else visible
  { m with sorted_ := s }

/-- `RemoteSolutionModel::sort`: update the sort column/order and rebuild the
view, unless both are unchanged. -/
def sort (m : RemoteSolutionModel) (column : Int) (order : SortOrder) : RemoteSolutionModel :=
  if m.sort_column_ = column ∧ m.sort_order_ = order then m
  else sortInternal { m with sort_column_ := column, sort_order_ := order }

end RemoteSolutionModel

/-- Pair each id with its 1-based rank in the input list (the
`ids_by_creation` construction before sorting: `(id, ++rank)`). -/
def rankedPairs : List Nat → Nat → List (Nat × Nat)
  | [], _ => []
  | id :: rest, rank => (id, rank + 1) :: rankedPairs rest (rank + 1)

/-- `detail::findById` followed by the in-place `cost_rank` update on the
first record with the given id, also reporting whether that record's
visibility flipped (`none` when no record has the id: the `Q_ASSERT` failure
branch). -/
def updateCostRank (vis : SolData → Bool) (id rank : Nat) :
    List SolData → Option (List SolData × Bool)
  | [] => none
  | d :: ds =>
    if d.id = id then
      let d' : SolData := { d with cost_rank := rank }
      some (d' :: ds, vis d' ≠ vis d)
    else
      match updateCostRank vis id rank ds with
      | none => none
      | some (ds', flip) => some (d :: ds', flip)

/-- The per-pair loop body of `processSolutionIDs`, threading `data_` and the
`size_changed` flag over the id-sorted `(id, rank)` pairs.  A pair whose id
exceeds the last stored id (or an empty store) appends a fresh record with the
supplied default cost, `creation_rank = 1 + size`, and the pair's rank;
otherwise the existing record's `cost_rank` is updated via lookup, `none`
signalling the lookup-failure assertion. -/
def processPairs (vis : SolData → Bool) (default_cost : Cost) :
    List (Nat × Nat) → List SolData → Bool → Option (List SolData × Bool)
  | [], data, changed => some (data, changed)
  | (id, rank) :: ps, data, changed =>
    if data = [] ∨ (data.getLastD ⟨0, .nan, 0, 0, ""⟩).id < id then
      let d : SolData :=
        { id := id, cost := default_cost, creation_rank := 1 + data.length,
          cost_rank := rank, name := "" }
      processPairs vis default_cost ps (data ++ [d]) (changed || vis d)
    else
      match updateCostRank vis id rank data with
      | none => none
      | some (data', flip) => processPairs vis default_cost ps data' (changed || flip)

namespace RemoteSolutionModel

/-- `RemoteSolutionModel::processSolutionIDs`: rank the incoming ids by their
position in the (cost-ordered) input, sort the pairs by id ascending, fold the
append-or-update step over them, then always rebuild the sorted view; returns
the updated store and whether any record's visibility changed, or `none` when
the lookup-failure assertion fires. -/
def processSolutionIDs (m : RemoteSolutionModel) (ids : List Nat) (default_cost : Cost) :
    Option (RemoteSolutionModel × Bool) :=
  match processPairs (fun d => m.isVisible d) default_cost
      (sortBy (fun a b => decide (a.1 < b.1)) (rankedPairs ids 0)) m.data_ false with
  | none => none
  | some (data', changed) =>
    some ((sortInternal { m with data_ := data' }), changed)

end RemoteSolutionModel

/-- The interface-capability bitset of a stage.  `InterfaceFlags` and the
numeric values of `READS_START`, `READS_END`, `WRITES_NEXT_START`,
`WRITES_PREV_END` live in `moveit/task_constructor/container.h`, which is not
among the sources; modelled from the spec as the subset of those four flags
("bitset over \x7bREADS_START, READS_END, WRITES_NEXT_START,
WRITES_PREV_END\x7d"), which is exactly what the recompute loop in
`processStageDescriptions` projects the wire word onto. -/
structure InterfaceFlags where
  readsStart : Bool
  readsEnd : Bool
  writesNextStart : Bool
  writesPrevEnd : Bool
deriving DecidableEq, Repr

/-- The empty bitset `InterfaceFlags()`. -/
def InterfaceFlags.none : InterfaceFlags :=
  ⟨false, false, false, false⟩

/-- `RemoteTaskModel::Node`: one stage of the mirrored task tree.  The C++
node holds a parent pointer and owning child pointers; here a node records its
parent's id (`none` for the root's null parent) and the ordered ids of its
children, and lives in the model's id-keyed association list. -/
structure Node where
  parentId : Option Nat
  children : List Nat
  name_ : String
  interface_flags_ : InterfaceFlags
  wasVisited : Bool
  nameChanged : Bool
  solutions_ : RemoteSolutionModel
deriving DecidableEq, Repr

/-- A fresh `Node(parent)`: empty name, no flags, not visited, fresh solution
store. -/
def Node.fresh (parentId : Option Nat) : Node :=
  { parentId := parentId
    children := []
    name_ := ""
    interface_flags_ := .none
    wasVisited := false
    nameChanged := false
    solutions_ := initSolutionModel }

/-- `Node::setName`: update the name and report whether it changed. -/
def Node.setName (n : Node) (name : String) : Node × Bool :=
  if name = n.name_ then (n, false) else ({ n with name_ := name }, true)

/-- One emitted Qt change notification.  `dataChanged` carries the id of the
node whose row the `QModelIndex` pair denotes (`none` for an invalid index)
and the column range; `rowsInserted` stands for one matched
`beginInsertRows`/`endInsertRows` bracket at the given row of the given
parent. -/
inductive Notif where
  | dataChanged (target : Option Nat) (loCol hiCol : Nat)
  | rowsInserted (parentId : Nat) (row : Nat)
deriving DecidableEq, Repr

/-- One entry of a `TaskDescription` stages batch. -/
structure DescEntry where
  id : Nat
  parent_id : Nat
  name : String
  flags : InterfaceFlags
deriving DecidableEq, Repr

/-- One entry of a `TaskStatistics` stages batch. -/
structure StatEntry where
  id : Nat
  solved : List Nat
  failed : List Nat
deriving DecidableEq, Repr

/-- `RemoteTaskModel`: the id-to-node registry (`id_to_stage_`, with the tree
structure inside the nodes) and the `IS_DESTROYED` flag. -/
structure Model where
  stages : List (Nat × Node)
  destroyed : Bool
deriving DecidableEq, Repr

/-- The constructor state: the registry maps id 0 to the root node. -/
def initModel : Model :=
  { stages := [(0, Node.fresh Option.none)], destroyed := false }

/-- `id_to_stage_` lookup (`RemoteTaskModel::node(uint32_t)`). -/
def lookupStage : List (Nat × Node) → Nat → Option Node
  | [], _ => Option.none
  | (j, n) :: t, i => if i = j then some n else lookupStage t i

/-- Rebind an id in the registry (replace the first binding, else append). -/
def updateStage : List (Nat × Node) → Nat → Node → List (Nat × Node)
  | [], i, n => [(i, n)]
  | (j, m) :: t, i, n => if i = j then (i, n) :: t else (j, m) :: updateStage t i n

namespace Model

/-- Lookup a node by stage id. -/
def node (m : Model) (id : Nat) : Option Node :=
  lookupStage m.stages id

/-- Replace the node bound to `id`. -/
def setNode (m : Model) (id : Nat) (n : Node) : Model :=
  { m with stages := updateStage m.stages id n }

end Model

/-- The `QModelIndex` target of `RemoteTaskModel::index(Node*)` for the node
with this id: the root yields the invalid index, any other node the index of
its row (identified here by the node's id). -/
def nodeTarget (id : Nat) : Option Nat :=
  if id = 0 then Option.none else some id

/-- Result of processing a description or statistics batch: the new model,
the emitted notifications in order, and the stage ids of the entries skipped
with a `ROS_ERROR` (unknown parent resp. unknown stage). -/
structure ProcResult where
  model : Model
  notifs : List Notif
  errors : List Nat
deriving DecidableEq, Repr

/-- The node-creation step of the description loop: if the stage id is not
yet registered, append a fresh node to the resolved parent's child list and
register it, emitting the `beginInsertRows`/`endInsertRows` bracket iff the
parent was ever visited; a known id leaves the model untouched. -/
def createChild (m : Model) (e : DescEntry) (parent : Node) : Model × List Notif :=
  match m.node e.id with
  | some _ => (m, [])
  | Option.none =>
    let notify := parent.wasVisited
    let row := parent.children.length
    let m1 := m.setNode e.parent_id { parent with children := parent.children ++ [e.id] }
    let m2 := m1.setNode e.id (Node.fresh (some e.parent_id))
    (m2, if notify then [.rowsInserted e.parent_id row] else [])

/-- The content-update step of the description loop: set the name (unless
manually renamed), recompute the interface flags, and emit one full-row
`dataChanged` iff something changed and the node was visited.  (The id is
always registered when this runs.) -/
def updateNodeContent (m : Model) (e : DescEntry) : Model × List Notif :=
  match m.node e.id with
  | Option.none => (m, [])
  | some n =>
    let nameStep : Node × Bool :=
      if n.nameChanged then (n, false) else n.setName e.name
    let changed := nameStep.2 || decide (¬ nameStep.1.interface_flags_ = e.flags)
    let n2 := { nameStep.1 with interface_flags_ := e.flags }
    (m.setNode e.id n2,
     if changed && n.wasVisited then [Notif.dataChanged (nodeTarget e.id) 0 2] else [])

/-- The per-entry body of `processStageDescriptions`: resolve the parent
(error-skip if unknown), create and register the node if the id is new, then
update the node's content. -/
def processDescEntry (m : Model) (e : DescEntry) : Model × List Notif × List Nat :=
  match m.node e.parent_id with
  | Option.none => (m, [], [e.id])
  | some parent =>
    let c := createChild m e parent
    let u := updateNodeContent c.1 e
    (u.1, c.2 ++ u.2, [])

/-- Fold `processDescEntry` over a batch, accumulating notifications and
error skips in order. -/
def processDescLoop : Model → List DescEntry → ProcResult
  | m, [] => ⟨m, [], []⟩
  | m, e :: es =>
    let step := processDescEntry m e
    let rest := processDescLoop step.1 es
    ⟨rest.model, step.2.1 ++ rest.notifs, step.2.2 ++ rest.errors⟩

/-- The empty-batch epilogue's `dataChanged(index(0, 0), index(0, 2))`:
`index(0, c, QModelIndex())` resolves the root and, if it has a first child,
marks that child visited and denotes its row; otherwise the indexes are
invalid. -/
def destroyedNotifStep (m : Model) : Model × Notif :=
  match m.node 0 with
  | Option.none => (m, .dataChanged Option.none 0 2)
  | some root =>
    match root.children with
    | [] => (m, .dataChanged Option.none 0 2)
    | c :: _ =>
      match m.node c with
      | Option.none => (m, .dataChanged Option.none 0 2)
      | some child =>
        (m.setNode c { child with wasVisited := true }, .dataChanged (some c) 0 2)

/-- `RemoteTaskModel::processStageDescriptions`: process each entry in order;
afterwards, if the batch was empty, set `IS_DESTROYED` and emit the root-row
`dataChanged`. -/
def processStageDescriptions (m : Model) (batch : List DescEntry) : ProcResult :=
  let loop := processDescLoop m batch
  match batch with
  | _ :: _ => loop
  | [] =>
    let m1 : Model := { loop.model with destroyed := true }
    let step := destroyedNotifStep m1
    ⟨step.1, loop.notifs ++ [step.2], loop.errors⟩

/-- The common tail of a statistics entry: write the updated ranking store
back into the node and emit the counts-columns `dataChanged` iff a visibility
change was reported and the node was visited. -/
def statFinish (m : Model) (e : StatEntry) (n : Node) (sols2 : RemoteSolutionModel)
    (changed : Bool) : Model × List Notif × List Nat :=
  (m.setNode e.id { n with solutions_ := sols2 },
   if changed && n.wasVisited then [Notif.dataChanged (nodeTarget e.id) 1 2] else [],
   [])

/-- The per-entry body of `processStageStatistics`: resolve the stage
(error-skip if unknown), feed the solved ids with default cost NaN and — only
if that call reports no visibility change, mirroring the short-circuit of
`||` — the failed ids with default cost `+inf`; emit one counts-columns
`dataChanged` iff a visibility change was reported and the node was visited.
`none` propagates the lookup-failure assertion of `processSolutionIDs`. -/
def processStatEntry (m : Model) (e : StatEntry) : Option (Model × List Notif × List Nat) :=
  match m.node e.id with
  | Option.none => some (m, [], [e.id])
  | some n =>
    match n.solutions_.processSolutionIDs e.solved .nan with
    | Option.none => Option.none
    | some (sols1, ch1) =>
      match (if ch1 then some (sols1, true) else sols1.processSolutionIDs e.failed .inf :
          Option (RemoteSolutionModel × Bool)) with
      | Option.none => Option.none
      | some (sols2, changed) => some (statFinish m e n sols2 changed)

/-- `RemoteTaskModel::processStageStatistics`: fold the per-entry body over
the batch. -/
def processStageStatistics : Model → List StatEntry → Option ProcResult
  | m, [] => some ⟨m, [], []⟩
  | m, e :: es =>
    match processStatEntry m e with
    | Option.none => Option.none
    | some step =>
      match processStageStatistics step.1 es with
      | Option.none => Option.none
      | some rest => some ⟨rest.model, step.2.1 ++ rest.notifs, step.2.2 ++ rest.errors⟩

namespace Model

/-- `RemoteTaskModel::setData` on column 0 with `Qt::EditRole` (the only
accepted column/role combination), addressed by the node's id: set the name
(ignoring whether it changed), set the manual-rename flag, emit `dataChanged`
for that index, and return true.  `none` models the guard returning false
(unknown node) with no effect. -/
def setData (m : Model) (id : Nat) (value : String) : Option (Model × List Notif) :=
  match m.node id with
  | Option.none => Option.none
  | some n =>
    let n1 := (n.setName value).1
    let n2 := { n1 with nameChanged := true }
    some (m.setNode id n2, [.dataChanged (nodeTarget id) 0 0])

end Model

/-- Apply a list of description batches in order (for stickiness across any
number of later batches). -/
def applyDescBatches : Model → List (List DescEntry) → Model
  | m, [] => m
  | m, b :: bs => applyDescBatches (processStageDescriptions m b).model bs

/-- The observer-facing traversal `RemoteTaskModel::index(row, column,
parent)` restricted to its model side effect: resolving a valid row under a
parent marks that child `WAS_VISITED`; anything out of bounds leaves the
model untouched. -/
def indexMark (m : Model) (parentId : Nat) (row : Nat) : Model :=
  match m.node parentId with
  | Option.none => m
  | some p =>
    match p.children.get? row with
    | Option.none => m
    | some c =>
      match m.node c with
      | Option.none => m
      | some child => m.setNode c { child with wasVisited := true }

/-- Equality of all per-node scalar content (everything except the parent
link and child list): a statement device for preservation lemmas. -/
def sameStageFields (a b : Node) : Prop :=
  a.name_ = b.name_ ∧ a.interface_flags_ = b.interface_flags_ ∧
  a.wasVisited = b.wasVisited ∧ a.nameChanged = b.nameChanged ∧
  a.solutions_ = b.solutions_

/-- Equality of the active sort-key values of two records: equal `cost_rank`
when sorting by the cost column (1), equal name otherwise (the name column,
2). -/
def sortKeyEq (sort_column : Int) (a b : SolData) : Prop :=
  if sort_column = 1 then a.cost_rank = b.cost_rank else a.name = b.name

/-- The strict order on the active sort key underlying `keyComp` (a proof
device for reasoning about the comparator): `cost_rank` order for column 1,
name order for column 2, empty otherwise. -/
def keyLt (sort_column : Int) (a b : SolData) : Prop :=
  if sort_column = 1 then a.cost_rank < b.cost_rank
  else if sort_column = 2 then a.name < b.name
  else False

/-- Whether a description entry induces an in-place change on the existing
node `n`: a name change (suppressed by the manual-rename flag) or an
interface-flags change — exactly the `changed` of the description loop. -/
def descChange (n : Node) (e : DescEntry) : Bool :=
  (if n.nameChanged then false else decide (¬ e.name = n.name_)) ||
    decide (¬ n.interface_flags_ = e.flags)

/-- The node whose row the empty-batch `dataChanged(index(0, 0), index(0, 2))`
denotes: the root's first child when there is one (`none` for an invalid
index). -/
def rootRowTarget (m : Model) : Option Nat :=
  match m.node 0 with
  | Option.none => Option.none
  | some root =>
    match root.children with
    | [] => Option.none
    | c :: _ => if (m.node c).isSome then some c else Option.none

/-- Projection of one registry binding onto everything except the visited
marker: stage id, parent link, child list, name, interface flags,
manual-rename flag and the full solution store. -/
def nodeData (p : Nat × Node) :
    Nat × Option Nat × List Nat × String × InterfaceFlags × Bool × RemoteSolutionModel :=
  (p.1, p.2.parentId, p.2.children, p.2.name_, p.2.interface_flags_,
   p.2.nameChanged, p.2.solutions_)

/-- All model content except the visited markers and the destroyed flag. -/
def treeData (m : Model) :
    List (Nat × Option Nat × List Nat × String × InterfaceFlags × Bool × RemoteSolutionModel) :=
  m.stages.map nodeData

/-- The solution ids recorded in the ranking store of the given stage. -/
def solutionIdsOf (m : Model) (id : Nat) : Option (List Nat) :=
  (m.node id).map (fun n => n.solutions_.data_.map SolData.id)

/-- A model with a single stage (id 1, under the root) described and never
visited: the state after `processStageDescriptions` of a one-entry batch on a
fresh model. -/
def oneStageModel : Model :=
  (processStageDescriptions initModel [⟨1, 0, "stage", InterfaceFlags.none⟩]).model

/-- `oneStageModel` after an observer traverses row 0 under the root,
marking stage 1 visited. -/
def visitedStageModel : Model :=
  indexMark oneStageModel 0 0

/-- The ranking store after feeding ids `[5]` and then `[6]` (both still
running, cost NaN) and then requesting a sort by the cost column in
descending order: two visible records with equal `cost_rank` 1 and creation
ranks 1 and 2. -/
def twoRecordStore : RemoteSolutionModel :=
  match (initSolutionModel.processSolutionIDs [5] Cost.nan).bind
      (fun r => r.1.processSolutionIDs [6] Cost.nan) with
  | some r => r.1.sort 1 .desc
  | Option.none => initSolutionModel

/-- The ranking store after feeding the failed id `[7]` (default cost `+inf`)
into a fresh store, whose cost ceiling is the effectively-unbounded `+inf`. -/
def infRecordStore : RemoteSolutionModel :=
  match initSolutionModel.processSolutionIDs [7] Cost.inf with
  | some r => r.1
  | Option.none => initSolutionModel

/-- The ranking store after `processSolutionIDs([30, 10, 20], NaN)` (Scenario
3, first call). -/
def oneCallStore : RemoteSolutionModel :=
  match initSolutionModel.processSolutionIDs [30, 10, 20] Cost.nan with
  | some r => r.1
  | Option.none => initSolutionModel

/-- The ranking store after `processSolutionIDs([30, 10, 20], NaN)` followed
by `processSolutionIDs([10, 20, 30], NaN)` (Scenario 3, both calls). -/
def twoCallStore : RemoteSolutionModel :=
  match oneCallStore.processSolutionIDs [10, 20, 30] Cost.nan with
  | some r => r.1
  | Option.none => initSolutionModel

/-! ### Generic facts about insertion sort by a boolean comparator -/

theorem mem_insertBy {less : α → α → Bool} {x y : α} {l : List α} :
    y ∈ insertBy less x l ↔ y = x ∨ y ∈ l := by
  induction l with
  | nil => simp [insertBy]
  | cons z l ih =>
    simp only [insertBy]
    split
    · simp [List.mem_cons]
    · simp only [List.mem_cons, ih]
      tauto

theorem insertBy_perm (less : α → α → Bool) (x : α) (l : List α) :
    (insertBy less x l).Perm (x :: l) := by
  induction l with
  | nil => exact List.Perm.refl _
  | cons z l ih =>
    simp only [insertBy]
    split
    · exact List.Perm.refl _
    · exact (ih.cons z).trans (List.Perm.swap x z l)

theorem sortBy_perm (less : α → α → Bool) (l : List α) : (sortBy less l).Perm l := by
  induction l with
  | nil => exact List.Perm.refl _
  | cons x l ih => exact (insertBy_perm less x _).trans (ih.cons x)

theorem mem_sortBy {less : α → α → Bool} {y : α} {l : List α} :
    y ∈ sortBy less l ↔ y ∈ l :=
  (sortBy_perm less l).mem_iff

theorem pairwise_insertBy {R : α → α → Prop} {less : α → α → Bool}
    (htrans : ∀ a b c, R a b → R b c → R a c)
    (hRless : ∀ a b, less a b = true → R a b) :
    ∀ {l : List α} {x : α}, l.Pairwise R → (∀ y ∈ l, less x y = false → R y x) →
      (insertBy less x l).Pairwise R := by
  intro l
  induction l with
  | nil =>
    intro x _ _
    simp [insertBy]
  | cons z l ih =>
    intro x hP hx
    rw [List.pairwise_cons] at hP
    simp only [insertBy]
    split
    · next hlt =>
      refine List.pairwise_cons.mpr ⟨?_, List.pairwise_cons.mpr hP⟩
      intro w hw
      rcases List.mem_cons.mp hw with rfl | hw
      · exact hRless _ _ hlt
      · exact htrans _ _ _ (hRless _ _ hlt) (hP.1 w hw)
    · next hnlt =>
      have hfalse : less x z = false := by simpa using hnlt
      refine List.pairwise_cons.mpr ⟨?_, ih hP.2 ?_⟩
      · intro w hw
        rcases mem_insertBy.mp hw with rfl | hw
        · exact hx z (List.mem_cons_self z l) hfalse
        · exact hP.1 w hw
      · intro y hy hf
        exact hx y (List.mem_cons_of_mem z hy) hf

theorem pairwise_sortBy {R : α → α → Prop} {less : α → α → Bool}
    (htrans : ∀ a b c, R a b → R b c → R a c)
    (hRless : ∀ a b, less a b = true → R a b) :
    ∀ {l : List α}, l.Pairwise (fun a b => less a b = false → R b a) →
      (sortBy less l).Pairwise R := by
  intro l
  induction l with
  | nil =>
    intro _
    simp [sortBy]
  | cons x l ih =>
    intro hconn
    rw [List.pairwise_cons] at hconn
    exact pairwise_insertBy htrans hRless (ih hconn.2)
      (fun y hy hf => hconn.1 y (mem_sortBy.mp hy) hf)

theorem pairwise_sortBy_total {R : α → α → Prop} {less : α → α → Bool}
    (htrans : ∀ a b c, R a b → R b c → R a c)
    (hRless : ∀ a b, less a b = true → R a b)
    (hRnot : ∀ a b, less a b = false → R b a) (l : List α) :
    (sortBy less l).Pairwise R := by
  refine pairwise_sortBy htrans hRless ?_
  induction l with
  | nil => exact List.Pairwise.nil
  | cons x l ih => exact List.pairwise_cons.mpr ⟨fun y _ hf => hRnot _ _ hf, ih⟩

/-! ### The sort comparator -/

theorem strComp_neg_iff {a b : String} : strComp a b = -1 ↔ a < b := by
  unfold strComp
  split
  · next h => exact iff_of_true rfl h
  · next h =>
    split
    · exact iff_of_false (by decide) h
    · exact iff_of_false (by decide) h

theorem strComp_pos_iff {a b : String} : strComp a b = 1 ↔ b < a := by
  unfold strComp
  split
  · next h => exact iff_of_false (by decide) (lt_asymm h)
  · next h =>
    split
    · next h2 => exact iff_of_true rfl h2
    · next h2 => exact iff_of_false (by decide) h2

theorem strComp_zero_iff {a b : String} : strComp a b = 0 ↔ a = b := by
  unfold strComp
  split
  · next h => exact iff_of_false (by decide) (ne_of_lt h)
  · next h =>
    split
    · next h2 => exact iff_of_false (by decide) (ne_of_gt h2)
    · next h2 => exact iff_of_true rfl (le_antisymm (not_lt.mp h2) (not_lt.mp h))

theorem keyComp_neg_iff {col : Int} {a b : SolData} :
    keyComp col a b = -1 ↔ keyLt col a b := by
  unfold keyComp keyLt
  split
  · split
    · next h => exact iff_of_true rfl h
    · split
      · next h2 h3 => exact iff_of_false (by decide) h2
      · next h2 h3 => exact iff_of_false (by decide) h2
  · split
    · exact strComp_neg_iff
    · exact iff_of_false (by decide) not_false

theorem keyComp_pos_iff {col : Int} {a b : SolData} :
    keyComp col a b = 1 ↔ keyLt col b a := by
  by_cases hc1 : col = 1
  · simp only [keyComp, keyLt, if_pos hc1]
    split
    · next h => exact iff_of_false (by decide) (by omega)
    · split
      · next h2 h3 => exact iff_of_true rfl h3
      · next h2 h3 => exact iff_of_false (by decide) h3
  · by_cases hc2 : col = 2
    · simp only [keyComp, keyLt, if_neg hc1, if_pos hc2]
      exact strComp_pos_iff
    · simp only [keyComp, keyLt, if_neg hc1, if_neg hc2]
      exact iff_of_false (by decide) not_false

theorem keyComp_zero_iff {col : Int} {a b : SolData} :
    keyComp col a b = 0 ↔ (¬ keyLt col a b ∧ ¬ keyLt col b a) := by
  by_cases hc1 : col = 1
  · simp only [keyComp, keyLt, if_pos hc1]
    split
    · next h => exact iff_of_false (by decide) (fun hh => hh.1 h)
    · split
      · next h2 h3 => exact iff_of_false (by decide) (fun hh => hh.2 h3)
      · next h2 h3 => exact iff_of_true rfl ⟨h2, h3⟩
  · by_cases hc2 : col = 2
    · simp only [keyComp, keyLt, if_neg hc1, if_pos hc2]
      constructor
      · intro h
        have heq := strComp_zero_iff.mp h
        exact ⟨fun hlt => absurd heq (ne_of_lt hlt), fun hlt => absurd heq (ne_of_gt hlt)⟩
      · intro hh
        exact strComp_zero_iff.mpr (le_antisymm (not_lt.mp hh.2) (not_lt.mp hh.1))
    · simp only [keyComp, keyLt, if_neg hc1, if_neg hc2]
      simp

theorem keyLt_trans {col : Int} {a b c : SolData}
    (h1 : keyLt col a b) (h2 : keyLt col b c) : keyLt col a c := by
  unfold keyLt at h1 h2 ⊢
  by_cases hc1 : col = 1
  · simp only [if_pos hc1] at h1 h2 ⊢
    omega
  · simp only [if_neg hc1] at h1 h2 ⊢
    by_cases hc2 : col = 2
    · simp only [if_pos hc2] at h1 h2 ⊢
      exact lt_trans h1 h2
    · simp only [if_neg hc2] at h1

theorem keyComp_zero_swap {col : Int} {a b : SolData} (h : keyComp col a b = 0) :
    keyComp col b a = 0 :=
  keyComp_zero_iff.mpr (And.symm (keyComp_zero_iff.mp h))

theorem keyComp_zero_congr {col : Int} {b c : SolData} (h : keyComp col b c = 0)
    (a : SolData) : (keyLt col a b ↔ keyLt col a c) ∧ (keyLt col b a ↔ keyLt col c a) := by
  have hh := keyComp_zero_iff.mp h
  unfold keyLt at hh ⊢
  obtain ⟨hh1, hh2⟩ := hh
  by_cases hc1 : col = 1
  · simp only [if_pos hc1] at hh1 hh2 ⊢
    refine ⟨⟨fun hx => ?_, fun hx => ?_⟩, ⟨fun hx => ?_, fun hx => ?_⟩⟩ <;> omega
  · simp only [if_neg hc1] at hh1 hh2 ⊢
    by_cases hc2 : col = 2
    · simp only [if_pos hc2] at hh1 hh2 ⊢
      have hbc : b.name = c.name := le_antisymm (not_lt.mp hh2) (not_lt.mp hh1)
      rw [hbc]
      exact ⟨Iff.rfl, Iff.rfl⟩
    · simp [if_neg hc2]

theorem keyComp_zero_trans {col : Int} {a b c : SolData}
    (h1 : keyComp col a b = 0) (h2 : keyComp col b c = 0) : keyComp col a c = 0 := by
  refine keyComp_zero_iff.mpr ⟨?_, ?_⟩
  · intro h
    exact (keyComp_zero_iff.mp h1).1 (((keyComp_zero_congr h2 a).1).mpr h)
  · intro h
    exact (keyComp_zero_iff.mp h1).2 (((keyComp_zero_congr h2 a).2).mpr h)

theorem cmpData_neg_iff {col : Int} {a b : SolData} :
    cmpData col a b = -1 ↔
      (keyLt col a b ∨ (keyComp col a b = 0 ∧ a.creation_rank < b.creation_rank)) := by
  unfold cmpData
  split
  · next h0 =>
    split
    · next hcr =>
      exact iff_of_true rfl (Or.inr ⟨h0, hcr⟩)
    · next hcr =>
      refine iff_of_false (by decide) ?_
      rintro (hk | ⟨_, hc⟩)
      · exact (keyComp_zero_iff.mp h0).1 hk
      · exact hcr hc
  · next h0 =>
    constructor
    · intro h
      exact Or.inl (keyComp_neg_iff.mp h)
    · rintro (hk | ⟨hz, _⟩)
      · exact keyComp_neg_iff.mpr hk
      · exact absurd hz h0

theorem cmpData_pos_iff {col : Int} {a b : SolData} :
    cmpData col a b = 1 ↔
      (keyLt col b a ∨ (keyComp col a b = 0 ∧ ¬ a.creation_rank < b.creation_rank)) := by
  unfold cmpData
  split
  · next h0 =>
    split
    · next hcr =>
      refine iff_of_false (by decide) ?_
      rintro (hk | ⟨_, hc⟩)
      · exact (keyComp_zero_iff.mp h0).2 hk
      · exact hc hcr
    · next hcr =>
      exact iff_of_true rfl (Or.inr ⟨h0, hcr⟩)
  · next h0 =>
    constructor
    · intro h
      exact Or.inl (keyComp_pos_iff.mp h)
    · rintro (hk | ⟨hz, _⟩)
      · exact keyComp_pos_iff.mpr hk
      · exact absurd hz h0

theorem keyComp_cases (col : Int) (a b : SolData) :
    keyComp col a b = -1 ∨ keyComp col a b = 0 ∨ keyComp col a b = 1 := by
  unfold keyComp
  split
  · split
    · exact Or.inl rfl
    · split
      · exact Or.inr (Or.inr rfl)
      · exact Or.inr (Or.inl rfl)
  · split
    · rcases lt_trichotomy a.name b.name with h | h | h
      · exact Or.inl (strComp_neg_iff.mpr h)
      · exact Or.inr (Or.inl (strComp_zero_iff.mpr h))
      · exact Or.inr (Or.inr (strComp_pos_iff.mpr h))
    · exact Or.inr (Or.inl rfl)

theorem cmpData_cases (col : Int) (a b : SolData) :
    cmpData col a b = -1 ∨ cmpData col a b = 1 := by
  unfold cmpData
  split
  · split
    · exact Or.inl rfl
    · exact Or.inr rfl
  · next h0 =>
    rcases keyComp_cases col a b with h | h | h
    · exact Or.inl h
    · exact absurd h h0
    · exact Or.inr h

theorem cmpData_swap_neg {col : Int} {a b : SolData} (h : cmpData col a b = -1) :
    cmpData col b a = 1 := by
  rcases cmpData_neg_iff.mp h with hk | ⟨hz, hcr⟩
  · exact cmpData_pos_iff.mpr (Or.inl hk)
  · exact cmpData_pos_iff.mpr (Or.inr ⟨keyComp_zero_swap hz, by omega⟩)

theorem cmpData_trans_neg {col : Int} {a b c : SolData}
    (h1 : cmpData col a b = -1) (h2 : cmpData col b c = -1) : cmpData col a c = -1 := by
  rcases cmpData_neg_iff.mp h1 with hk1 | ⟨hz1, hc1⟩ <;>
    rcases cmpData_neg_iff.mp h2 with hk2 | ⟨hz2, hc2⟩
  · exact cmpData_neg_iff.mpr (Or.inl (keyLt_trans hk1 hk2))
  · exact cmpData_neg_iff.mpr (Or.inl (((keyComp_zero_congr hz2 a).1).mp hk1))
  · exact cmpData_neg_iff.mpr (Or.inl (((keyComp_zero_congr hz1 c).2).mpr hk2))
  · exact cmpData_neg_iff.mpr (Or.inr ⟨keyComp_zero_trans hz1 hz2, by omega⟩)

theorem cmpData_trans_pos {col : Int} {a b c : SolData}
    (h1 : cmpData col a b = 1) (h2 : cmpData col b c = 1) : cmpData col a c = 1 := by
  rcases cmpData_pos_iff.mp h1 with hk1 | ⟨hz1, hc1⟩ <;>
    rcases cmpData_pos_iff.mp h2 with hk2 | ⟨hz2, hc2⟩
  · exact cmpData_pos_iff.mpr (Or.inl (keyLt_trans hk2 hk1))
  · exact cmpData_pos_iff.mpr (Or.inl (((keyComp_zero_congr hz2 a).2).mp hk1))
  · exact cmpData_pos_iff.mpr (Or.inl (((keyComp_zero_congr hz1 c).1).mpr hk2))
  · exact cmpData_pos_iff.mpr (Or.inr ⟨keyComp_zero_trans hz1 hz2, by omega⟩)

theorem lessData_asc_iff {col : Int} {a b : SolData} :
    lessData col .asc a b = true ↔ cmpData col a b = -1 := by
  simp only [lessData, decide_eq_true_eq]
  constructor
  · intro h
    rcases cmpData_cases col a b with h1 | h1
    · exact h1
    · omega
  · intro h
    omega

theorem lessData_desc_iff {col : Int} {a b : SolData} :
    lessData col .desc a b = true ↔ cmpData col a b = 1 := by
  simp only [lessData, decide_eq_true_eq]
  constructor
  · intro h
    rcases cmpData_cases col a b with h1 | h1
    · omega
    · exact h1
  · intro h
    omega

theorem lessData_trans (col : Int) (ord : SortOrder) :
    ∀ a b c : SolData, lessData col ord a b = true → lessData col ord b c = true →
      lessData col ord a c = true := by
  intro a b c h1 h2
  cases ord
  · exact lessData_asc_iff.mpr
      (cmpData_trans_neg (lessData_asc_iff.mp h1) (lessData_asc_iff.mp h2))
  · exact lessData_desc_iff.mpr
      (cmpData_trans_pos (lessData_desc_iff.mp h1) (lessData_desc_iff.mp h2))

theorem lessData_false_flip {col : Int} {ord : SortOrder} {a b : SolData}
    (hne : a.creation_rank ≠ b.creation_rank)
    (h : lessData col ord a b = false) : lessData col ord b a = true := by
  cases ord
  · have hcmp : cmpData col a b = 1 := by
      rcases cmpData_cases col a b with h1 | h1
      · rw [lessData_asc_iff.mpr h1] at h
        exact absurd h (by decide)
      · exact h1
    rcases cmpData_pos_iff.mp hcmp with hk | ⟨hz, hcr⟩
    · exact lessData_asc_iff.mpr (cmpData_neg_iff.mpr (Or.inl hk))
    · exact lessData_asc_iff.mpr
        (cmpData_neg_iff.mpr (Or.inr ⟨keyComp_zero_swap hz, by omega⟩))
  · have hcmp : cmpData col a b = -1 := by
      rcases cmpData_cases col a b with h1 | h1
      · exact h1
      · rw [lessData_desc_iff.mpr h1] at h
        exact absurd h (by decide)
    exact lessData_desc_iff.mpr (cmpData_swap_neg hcmp)

theorem sortKeyEq_keyComp_zero {col : Int} (hcol : col = 1 ∨ col = 2) {a b : SolData}
    (h : sortKeyEq col a b) : keyComp col a b = 0 := by
  rcases hcol with hc | hc <;> subst hc
  · unfold sortKeyEq at h
    rw [if_pos rfl] at h
    unfold keyComp
    rw [if_pos rfl, h]
    simp
  · unfold sortKeyEq at h
    rw [if_neg (by decide)] at h
    unfold keyComp
    rw [if_neg (by decide), if_pos rfl]
    exact strComp_zero_iff.mpr h

/-- C4 (amended): in the view rebuilt by `sortInternal` under an active sort
column, ties in the active sort key are broken by `creation_rank` ascending
when the sort order is ascending, but by `creation_rank` *descending* when
the sort order is descending: the comparator hands `std::sort` the fully
negated comparison, tie-break included. -/
theorem C4_tiebreak_amended (m : RemoteSolutionModel)
    (hcol : m.sort_column_ = 1 ∨ m.sort_column_ = 2)
    (hdist : m.data_.Pairwise fun a b => a.creation_rank ≠ b.creation_rank) :
    (m.sortInternal).sorted_.Pairwise fun a b =>
      sortKeyEq m.sort_column_ a b →
        (m.sort_order_ = SortOrder.asc → a.creation_rank < b.creation_rank) ∧
        (m.sort_order_ = SortOrder.desc → b.creation_rank < a.creation_rank) := by
  have hge : m.sort_column_ ≥ 0 := by rcases hcol with h | h <;> omega
  have hdvis : (m.data_.filter (fun d => m.isVisible d)).Pairwise
      (fun a b => a.creation_rank ≠ b.creation_rank) := hdist.filter _
  have hsorted : (m.sortInternal).sorted_ =
      sortBy (lessData m.sort_column_ m.sort_order_)
        (m.data_.filter (fun d => m.isVisible d)) := by
    unfold RemoteSolutionModel.sortInternal
    simp [hge]
  rw [hsorted]
  have hP : (sortBy (lessData m.sort_column_ m.sort_order_)
      (m.data_.filter (fun d => m.isVisible d))).Pairwise
      (fun a b => lessData m.sort_column_ m.sort_order_ a b = true) :=
    pairwise_sortBy (lessData_trans _ _) (fun _ _ h => h)
      (hdvis.imp (fun hne hf => lessData_false_flip hne hf))
  have hdist2 : (sortBy (lessData m.sort_column_ m.sort_order_)
      (m.data_.filter (fun d => m.isVisible d))).Pairwise
      (fun a b => a.creation_rank ≠ b.creation_rank) :=
    (((sortBy_perm _ _).pairwise_iff (fun h => Ne.symm h)).mpr hdvis)
  refine (hP.and hdist2).imp ?_
  rintro a b ⟨hless, hne⟩ hkey
  have h0 : keyComp m.sort_column_ a b = 0 := sortKeyEq_keyComp_zero hcol hkey
  constructor
  · intro hasc
    rw [hasc] at hless
    rcases cmpData_neg_iff.mp (lessData_asc_iff.mp hless) with hk | ⟨_, hcr⟩
    · exact absurd hk (keyComp_zero_iff.mp h0).1
    · exact hcr
  · intro hdesc
    rw [hdesc] at hless
    rcases cmpData_pos_iff.mp (lessData_desc_iff.mp hless) with hk | ⟨_, hcr⟩
    · exact absurd hk (keyComp_zero_iff.mp h0).2
    · omega

/-- C4 (counterexample): in `twoRecordStore`'s view — sort by the cost
column, descending — the two visible records have equal `cost_rank` 1, yet
the record with the larger creation rank (2) is placed before the one with
the smaller creation rank (1), refuting the claim that the smaller
creation_rank sorts first under descending order as well. -/
theorem C4_counterexample :
    twoRecordStore.sort_column_ = 1 ∧ twoRecordStore.sort_order_ = SortOrder.desc ∧
    twoRecordStore.sorted_.map (fun d => (d.id, d.cost_rank, d.creation_rank)) =
      [(6, 1, 2), (5, 1, 1)] ∧
    ¬ twoRecordStore.sorted_.Pairwise (fun a b =>
        a.cost_rank = b.cost_rank → a.creation_rank < b.creation_rank) := by
  decide

/-- C4 (witness): the amended tie-break law applied to the concrete
two-record store. -/
theorem C4_tiebreak_amended_witness :
    (twoRecordStore.sortInternal).sorted_.Pairwise fun a b =>
      sortKeyEq twoRecordStore.sort_column_ a b →
        (twoRecordStore.sort_order_ = SortOrder.asc → a.creation_rank < b.creation_rank) ∧
        (twoRecordStore.sort_order_ = SortOrder.desc → b.creation_rank < a.creation_rank) :=
  C4_tiebreak_amended twoRecordStore (Or.inl (by decide)) (by decide)

/-- C2 (counterexample): after `processSolutionIDs([30,10,20], NaN)` followed
by `processSolutionIDs([10,20,30], NaN)`, the creation ranks of ids 10, 20,
30 are 1, 2, 3 — and not the 2, 3, 1 the claim reads off the order of first
sight in the input stream: the store assigns creation ranks in ascending id
order, having re-sorted each batch by id before insertion. -/
theorem C2_counterexample :
    twoCallStore.data_.map (fun d => (d.id, d.creation_rank)) =
      [(10, 1), (20, 2), (30, 3)] ∧
    ¬ twoCallStore.data_.map (fun d => (d.id, d.creation_rank)) =
      [(10, 2), (20, 3), (30, 1)] := by
  decide

/-- C2 (amended): Scenario 3 against the code: creation ranks follow
ascending id order (1, 2, 3 for ids 10, 20, 30) and are stable across both
calls, while the cost ranks are 2, 3, 1 after the first call and 1, 2, 3
after the second. -/
theorem C2_amended_scenario :
    oneCallStore.data_.map (fun d => (d.id, d.creation_rank, d.cost_rank)) =
      [(10, 1, 2), (20, 2, 3), (30, 3, 1)] ∧
    twoCallStore.data_.map (fun d => (d.id, d.creation_rank, d.cost_rank)) =
      [(10, 1, 1), (20, 2, 2), (30, 3, 3)] := by
  decide

/-- C3 (counterexample): a failed record (cost `+inf`) is not visible even
under the effectively-unbounded cost ceiling `+inf` (the default): IEEE
`inf < inf` is false, so `isVisible` rejects it and the sorted view stays
empty. -/
theorem C3_counterexample :
    infRecordStore.max_cost_ = Cost.inf ∧
    infRecordStore.data_.map (fun d => (d.id, d.cost)) = [(7, Cost.inf)] ∧
    infRecordStore.sorted_ = [] ∧
    infRecordStore.isVisible ⟨7, Cost.inf, 1, 1, ""⟩ = false := by
  decide

/-- C3 (amended): the visibility predicate: a NaN-cost record is always
visible; an infinite-cost record is never visible, under any ceiling; a
finite-cost record is visible under a finite ceiling iff its cost is strictly
below it, and always visible under the unbounded ceiling `+inf`. -/
theorem C3_visibility_amended (m : RemoteSolutionModel) (d : SolData) :
    (d.cost = Cost.nan → m.isVisible d = true) ∧
    (d.cost = Cost.inf → m.isVisible d = false) ∧
    (∀ q q', d.cost = Cost.fin q → m.max_cost_ = Cost.fin q' →
      (m.isVisible d = true ↔ q < q')) ∧
    (∀ q, d.cost = Cost.fin q → m.max_cost_ = Cost.inf → m.isVisible d = true) := by
  unfold RemoteSolutionModel.isVisible
  refine ⟨fun h => ?_, fun h => ?_, fun q q' h h2 => ?_, fun q h h2 => ?_⟩
  · rw [h]
    rfl
  · rw [h]
    cases m.max_cost_ <;> rfl
  · rw [h, h2]
    simp [Cost.isNaN, Cost.lt]
  · rw [h, h2]
    rfl

/-- C3 (witness): the amended visibility law at concrete records — a NaN
record in a fresh store, the infinite record of `infRecordStore`, and a
finite record below the unbounded default ceiling. -/
theorem C3_visibility_amended_witness :
    initSolutionModel.isVisible ⟨1, Cost.nan, 1, 1, ""⟩ = true ∧
    infRecordStore.isVisible ⟨7, Cost.inf, 1, 1, ""⟩ = false ∧
    initSolutionModel.isVisible ⟨2, Cost.fin 5, 1, 1, ""⟩ = true :=
  ⟨(C3_visibility_amended initSolutionModel ⟨1, Cost.nan, 1, 1, ""⟩).1 rfl,
   (C3_visibility_amended infRecordStore ⟨7, Cost.inf, 1, 1, ""⟩).2.1 rfl,
   (C3_visibility_amended initSolutionModel ⟨2, Cost.fin 5, 1, 1, ""⟩).2.2.2 5 rfl rfl⟩

/-- C5 (counterexample): a genuinely new id (5) that does not exceed the last
known id (10) reaches the lookup-failure branch: the `Q_ASSERT` fires (debug)
or the following update dereferences `end()` (release), modelled as `none`. -/
theorem C5_assert_counterexample :
    (initSolutionModel.processSolutionIDs [10] Cost.nan).map
      (fun r => r.1.data_.map SolData.id) = some [10] ∧
    ((initSolutionModel.processSolutionIDs [10] Cost.nan).bind
      (fun r => r.1.processSolutionIDs [5] Cost.nan)) = Option.none := by
  decide

theorem mem_rankedPairs {p : Nat × Nat} :
    ∀ {ids : List Nat} {k : Nat}, p ∈ rankedPairs ids k → p.1 ∈ ids := by
  intro ids
  induction ids with
  | nil =>
    intro k h
    simp [rankedPairs] at h
  | cons i ids ih =>
    intro k h
    simp only [rankedPairs, List.mem_cons] at h
    rcases h with h | h
    · simp [h]
    · exact List.mem_cons_of_mem _ (ih h)

theorem updateCostRank_isSome {vis : SolData → Bool} {i r : Nat} :
    ∀ {data : List SolData}, (∃ d ∈ data, d.id = i) →
      (updateCostRank vis i r data).isSome = true := by
  intro data
  induction data with
  | nil =>
    rintro ⟨d, hd, _⟩
    exact absurd hd (List.not_mem_nil d)
  | cons d ds ih =>
    rintro ⟨e, he, hei⟩
    simp only [updateCostRank]
    split
    · rfl
    · next hne =>
      rcases List.mem_cons.mp he with rfl | he2
      · exact absurd hei hne
      · have hs := ih ⟨e, he2, hei⟩
        cases hu : updateCostRank vis i r ds with
        | none => rw [hu] at hs; simp at hs
        | some pr => simp [hu]

theorem updateCostRank_ids {vis : SolData → Bool} {i r : Nat} :
    ∀ {data data' : List SolData} {f : Bool},
      updateCostRank vis i r data = some (data', f) →
      data'.map SolData.id = data.map SolData.id := by
  intro data
  induction data with
  | nil =>
    intro data' f h
    simp [updateCostRank] at h
  | cons d ds ih =>
    intro data' f h
    simp only [updateCostRank] at h
    split at h
    · simp only [Option.some.injEq, Prod.mk.injEq] at h
      obtain ⟨h1, _⟩ := h
      subst h1
      simp
    · cases hu : updateCostRank vis i r ds with
      | none => rw [hu] at h; simp at h
      | some pr =>
        obtain ⟨ds', f'⟩ := pr
        rw [hu] at h
        simp only [Option.some.injEq, Prod.mk.injEq] at h
        obtain ⟨h1, _⟩ := h
        subst h1
        simp [ih hu]

theorem getLastD_mem (l : List α) (dflt : α) (h : l ≠ []) : l.getLastD dflt ∈ l := by
  cases l with
  | nil => exact absurd rfl h
  | cons x xs => exact List.getLast_mem (List.cons_ne_nil x xs)

theorem processPairs_isSome {vis : SolData → Bool} {c : Cost} :
    ∀ (ps : List (Nat × Nat)) (data : List SolData) (b : Bool),
      ps.Pairwise (fun p q => p.1 ≤ q.1) →
      (∀ p ∈ ps, (∃ d ∈ data, d.id = p.1) ∨ (∀ d ∈ data, d.id < p.1)) →
      (processPairs vis c ps data b).isSome = true := by
  intro ps
  induction ps with
  | nil =>
    intro data b _ _
    simp [processPairs]
  | cons p ps ih =>
    intro data b hsort hH
    rw [List.pairwise_cons] at hsort
    obtain ⟨hple, hsort2⟩ := hsort
    obtain ⟨id, rank⟩ := p
    simp only [processPairs]
    split
    · apply ih _ _ hsort2
      intro q hq
      rcases hH q (List.mem_cons_of_mem _ hq) with ⟨d, hd, hdi⟩ | hall
      · exact Or.inl ⟨d, List.mem_append_left _ hd, hdi⟩
      · have hle : id ≤ q.1 := hple q hq
        rcases Nat.lt_or_ge id q.1 with hlt | hge
        · refine Or.inr ?_
          intro d hd
          rcases List.mem_append.mp hd with hd | hd
          · exact hall d hd
          · rw [List.mem_singleton.mp hd]
            exact hlt
        · have hqi : id = q.1 := le_antisymm hle hge
          refine Or.inl ⟨_, List.mem_append_right _ (List.mem_singleton_self _), hqi⟩
    · next hguard =>
      push_neg at hguard
      obtain ⟨hne, hnlt⟩ := hguard
      have hex : ∃ d ∈ data, d.id = id := by
        rcases hH (id, rank) (List.mem_cons_self _ _) with hex | hall
        · exact hex
        · have hlast := hall _
            (getLastD_mem data ⟨0, Cost.nan, 0, 0, ""⟩ hne)
          omega
      have hsome := @updateCostRank_isSome vis id rank data hex
      cases hu : updateCostRank vis id rank data with
      | none => rw [hu] at hsome; simp at hsome
      | some pr =>
        obtain ⟨data2, flip⟩ := pr
        show (processPairs vis c ps data2 (b || flip)).isSome = true
        apply ih _ _ hsort2
        intro q hq
        have hids := updateCostRank_ids hu
        rcases hH q (List.mem_cons_of_mem _ hq) with ⟨d, hd, hdi⟩ | hall
        · refine Or.inl ?_
          have hm : q.1 ∈ data2.map SolData.id := by
            rw [hids]
            exact List.mem_map.mpr ⟨d, hd, hdi⟩
          rcases List.mem_map.mp hm with ⟨e, he, hei⟩
          exact ⟨e, he, hei⟩
        · refine Or.inr ?_
          intro d hd
          have hm : d.id ∈ data.map SolData.id := by
            rw [← hids]
            exact List.mem_map.mpr ⟨d, hd, rfl⟩
          rcases List.mem_map.mp hm with ⟨e, he, hei⟩
          rw [← hei]
          exact hall e he

/-- C5 (amended): the lookup fallback is correct for ids that are already
present: whenever every input id that does not exceed every stored id is
itself stored, `processSolutionIDs` completes without reaching the
lookup-failure assertion.  (The counterexample shows the assertion branch is
reachable for a genuinely new id below the last known id, so the claimed
unreachability for every input is false.) -/
theorem C5_lookup_amended (m : RemoteSolutionModel) (ids : List Nat) (default_cost : Cost)
    (h : ∀ i ∈ ids, (∃ d ∈ m.data_, d.id = i) ∨ (∀ d ∈ m.data_, d.id < i)) :
    (m.processSolutionIDs ids default_cost).isSome = true := by
  unfold RemoteSolutionModel.processSolutionIDs
  have hsort : (sortBy (fun a b : Nat × Nat => decide (a.1 < b.1))
      (rankedPairs ids 0)).Pairwise (fun p q => p.1 ≤ q.1) :=
    @pairwise_sortBy_total (Nat × Nat) (fun p q => p.1 ≤ q.1)
      (fun a b => decide (a.1 < b.1))
      (fun a b c h1 h2 => le_trans h1 h2)
      (fun a b hb => le_of_lt (of_decide_eq_true hb))
      (fun a b hb => le_of_not_lt (of_decide_eq_false hb)) _
  have hsome := @processPairs_isSome (fun d => m.isVisible d) default_cost
    _ m.data_ false hsort
    (fun p hp => h p.1 (mem_rankedPairs (mem_sortBy.mp hp)))
  cases hu : processPairs (fun d => m.isVisible d) default_cost
      (sortBy (fun a b : Nat × Nat => decide (a.1 < b.1)) (rankedPairs ids 0)) m.data_ false with
  | none => rw [hu] at hsome; simp at hsome
  | some pr =>
    obtain ⟨data2, changed⟩ := pr
    rfl

/-- C5 (witness): on a fresh store, any batch of new ids is processed without
reaching the assertion branch. -/
theorem C5_lookup_amended_witness :
    (initSolutionModel.processSolutionIDs [3] Cost.nan).isSome = true :=
  C5_lookup_amended initSolutionModel [3] Cost.nan (by decide)

/-- C1: evaluating `processStageStatistics` at the failing input: the solved
list `[1]` adds a new visible record, so `processSolutionIDs` returns true
and the `||` short-circuit skips the failed list `[2]` entirely — the
resulting store holds only solution id 1 (no infinite-cost record 2), where
the claim requires both id lists to be fed. -/
theorem C1_shortcircuit_eval :
    ((oneStageModel.node 1).map
      (fun n => (n.solutions_.processSolutionIDs [1] Cost.nan).map Prod.snd)) =
      some (some true) ∧
    (processStageStatistics oneStageModel [⟨1, [1], [2]⟩]).map
      (fun r => (solutionIdsOf r.model 1, r.notifs)) = some (some [1], []) := by
  decide

/-! ### Registry lemmas -/

theorem lookupStage_updateStage :
    ∀ (l : List (Nat × Node)) (i : Nat) (n : Node) (k : Nat),
      lookupStage (updateStage l i n) k = if k = i then some n else lookupStage l k := by
  intro l i n
  induction l with
  | nil =>
    intro k
    rfl
  | cons p l ih =>
    intro k
    obtain ⟨j, nj⟩ := p
    by_cases hij : i = j
    · simp only [updateStage, if_pos hij]
      subst hij
      by_cases hk : k = i
      · simp [lookupStage, hk]
      · simp [lookupStage, hk]
    · simp only [updateStage, if_neg hij]
      by_cases hk : k = j
      · have hji : ¬ j = i := fun hh => hij hh.symm
        simp [lookupStage, hk, hji]
      · simp [lookupStage, hk, ih]

theorem node_setNode_same (m : Model) (i : Nat) (n : Node) :
    (m.setNode i n).node i = some n := by
  simp [Model.node, Model.setNode, lookupStage_updateStage]

theorem node_setNode_other (m : Model) {i k : Nat} (n : Node) (h : ¬ k = i) :
    (m.setNode i n).node k = m.node k := by
  simp [Model.node, Model.setNode, lookupStage_updateStage, h]

theorem updateStage_self :
    ∀ {l : List (Nat × Node)} {i : Nat} {n : Node},
      lookupStage l i = some n → updateStage l i n = l := by
  intro l
  induction l with
  | nil =>
    intro i n h
    simp [lookupStage] at h
  | cons p l ih =>
    intro i n h
    obtain ⟨j, nj⟩ := p
    simp only [lookupStage] at h
    simp only [updateStage]
    by_cases hij : i = j
    · rw [if_pos hij] at h ⊢
      rw [Option.some.injEq] at h
      rw [hij, h]
    · rw [if_neg hij] at h ⊢
      rw [ih h]

theorem setNode_self {m : Model} {i : Nat} {n : Node} (h : m.node i = some n) :
    m.setNode i n = m := by
  unfold Model.setNode
  rw [updateStage_self h]

/-! ### Anatomy of the description-entry step -/

theorem createChild_preserve {m : Model} {e : DescEntry} {parent : Node}
    (hp : m.node e.parent_id = some parent) {i : Nat} {n : Node}
    (h : m.node i = some n) :
    ∃ nn, ((createChild m e parent).1).node i = some nn ∧ sameStageFields nn n := by
  unfold createChild
  cases hid : m.node e.id with
  | some n0 =>
    exact ⟨n, h, rfl, rfl, rfl, rfl, rfl⟩
  | none =>
    have hie : ¬ i = e.id := by
      intro hh
      rw [hh, hid] at h
      exact Option.noConfusion h
    rw [node_setNode_other _ _ hie]
    by_cases hip : i = e.parent_id
    · subst hip
      rw [h] at hp
      rw [Option.some.injEq] at hp
      subst hp
      rw [node_setNode_same]
      exact ⟨_, rfl, rfl, rfl, rfl, rfl, rfl⟩
    · rw [node_setNode_other _ _ hip, h]
      exact ⟨n, rfl, rfl, rfl, rfl, rfl, rfl⟩

theorem createChild_backward {m : Model} {e : DescEntry} {parent : Node}
    (hp : m.node e.parent_id = some parent) {i : Nat} {nn : Node}
    (h : ((createChild m e parent).1).node i = some nn) (hv : nn.wasVisited = true) :
    ∃ n, m.node i = some n ∧ n.wasVisited = true := by
  unfold createChild at h
  cases hid : m.node e.id with
  | some n0 =>
    rw [hid] at h
    exact ⟨nn, h, hv⟩
  | none =>
    rw [hid] at h
    by_cases hie : i = e.id
    · subst hie
      rw [node_setNode_same] at h
      rw [Option.some.injEq] at h
      rw [← h] at hv
      simp [Node.fresh] at hv
    · rw [node_setNode_other _ _ hie] at h
      by_cases hip : i = e.parent_id
      · subst hip
        rw [node_setNode_same] at h
        rw [Option.some.injEq] at h
        refine ⟨parent, hp, ?_⟩
        rw [← h] at hv
        exact hv
      · rw [node_setNode_other _ _ hip] at h
        exact ⟨nn, h, hv⟩

theorem createChild_known {m : Model} {e : DescEntry} {parent : Node} {n0 : Node}
    (hid : m.node e.id = some n0) : createChild m e parent = (m, []) := by
  unfold createChild
  rw [hid]

theorem createChild_notifs {m : Model} {e : DescEntry} {parent : Node} :
    ∀ notif ∈ (createChild m e parent).2,
      notif = Notif.rowsInserted e.parent_id parent.children.length ∧
        parent.wasVisited = true := by
  intro notif hmem
  cases hid : m.node e.id with
  | some n0 =>
    rw [createChild_known hid] at hmem
    exact absurd hmem (List.not_mem_nil notif)
  | none =>
    simp only [createChild, hid] at hmem
    by_cases hv : parent.wasVisited
    · rw [if_pos hv] at hmem
      rw [List.mem_singleton.mp hmem]
      exact ⟨rfl, hv⟩
    · rw [if_neg hv] at hmem
      exact absurd hmem (List.not_mem_nil notif)

theorem createChild_registers {m : Model} {e : DescEntry} {parent : Node} :
    ∃ n0, ((createChild m e parent).1).node e.id = some n0 := by
  unfold createChild
  cases hid : m.node e.id with
  | some n0 => exact ⟨n0, hid⟩
  | none =>
    rw [node_setNode_same]
    exact ⟨_, rfl⟩

theorem setName_fst_name (n : Node) (v : String) : ((n.setName v).1).name_ = v := by
  unfold Node.setName
  split
  · next h => rw [h]
  · rfl

theorem setName_fst_fields (n : Node) (v : String) :
    ((n.setName v).1).wasVisited = n.wasVisited ∧
    ((n.setName v).1).nameChanged = n.nameChanged ∧
    ((n.setName v).1).interface_flags_ = n.interface_flags_ ∧
    ((n.setName v).1).solutions_ = n.solutions_ ∧
    ((n.setName v).1).parentId = n.parentId ∧
    ((n.setName v).1).children = n.children := by
  unfold Node.setName
  split
  · exact ⟨rfl, rfl, rfl, rfl, rfl, rfl⟩
  · exact ⟨rfl, rfl, rfl, rfl, rfl, rfl⟩

theorem descChange_false_iff {n : Node} {e : DescEntry} :
    descChange n e = false ↔
      ((n.nameChanged = true ∨ e.name = n.name_) ∧ n.interface_flags_ = e.flags) := by
  unfold descChange
  by_cases h1 : n.nameChanged
  · simp [h1, decide_eq_false_iff_not]
  · simp only [h1, Bool.false_eq_true, if_false, Bool.or_eq_false_iff,
      decide_eq_false_iff_not, not_not]
    constructor
    · rintro ⟨ha, hb⟩
      exact ⟨Or.inr ha, hb⟩
    · rintro ⟨ha, hb⟩
      rcases ha with ha | ha
      · exact ha.elim
      · exact ⟨ha, hb⟩

theorem updateNodeContent_unknown {m : Model} {e : DescEntry}
    (hid : m.node e.id = Option.none) : updateNodeContent m e = (m, []) := by
  unfold updateNodeContent
  rw [hid]

theorem updateNodeContent_known {m : Model} {e : DescEntry} {n : Node}
    (hid : m.node e.id = some n) :
    updateNodeContent m e =
      (m.setNode e.id
        { (if n.nameChanged then n else (n.setName e.name).1) with
            interface_flags_ := e.flags },
       if descChange n e && n.wasVisited then
         [Notif.dataChanged (nodeTarget e.id) 0 2] else []) := by
  unfold updateNodeContent
  rw [hid]
  by_cases hnc : n.nameChanged
  · simp [hnc, descChange]
  · by_cases heq : e.name = n.name_
    · simp [hnc, heq, descChange, Node.setName]
    · simp [hnc, heq, descChange, Node.setName]

theorem updateNodeContent_preserve {m : Model} {e : DescEntry} {i : Nat} {n : Node}
    (h : m.node i = some n) :
    ∃ nn, ((updateNodeContent m e).1).node i = some nn ∧
      nn.wasVisited = n.wasVisited ∧ nn.nameChanged = n.nameChanged ∧
      nn.solutions_ = n.solutions_ ∧
      (n.nameChanged = true → nn.name_ = n.name_) ∧
      (¬ i = e.id → nn = n) := by
  cases hid : m.node e.id with
  | none =>
    rw [updateNodeContent_unknown hid]
    exact ⟨n, h, rfl, rfl, rfl, fun _ => rfl, fun _ => rfl⟩
  | some n0 =>
    rw [updateNodeContent_known hid]
    by_cases hie : i = e.id
    · subst hie
      rw [h] at hid
      rw [Option.some.injEq] at hid
      subst hid
      rw [node_setNode_same]
      refine ⟨_, rfl, ?_, ?_, ?_, ?_, ?_⟩
      · by_cases hnc : n.nameChanged <;>
          simp [hnc, (setName_fst_fields n e.name).1]
      · by_cases hnc : n.nameChanged <;>
          simp [hnc, (setName_fst_fields n e.name).2.1]
      · by_cases hnc : n.nameChanged <;>
          simp [hnc, (setName_fst_fields n e.name).2.2.2.1]
      · intro hcc
        simp [hcc]
      · intro hc
        exact absurd rfl hc
    · rw [node_setNode_other _ _ hie, h]
      exact ⟨n, rfl, rfl, rfl, rfl, fun _ => rfl, fun _ => rfl⟩

theorem updateNodeContent_backward {m : Model} {e : DescEntry} {i : Nat} {nn : Node}
    (h : ((updateNodeContent m e).1).node i = some nn) (hv : nn.wasVisited = true) :
    ∃ n0, m.node i = some n0 ∧ n0.wasVisited = true := by
  cases hid : m.node e.id with
  | none =>
    rw [updateNodeContent_unknown hid] at h
    exact ⟨nn, h, hv⟩
  | some n0 =>
    rw [updateNodeContent_known hid] at h
    by_cases hie : i = e.id
    · subst hie
      rw [node_setNode_same] at h
      rw [Option.some.injEq] at h
      refine ⟨n0, hid, ?_⟩
      rw [← h] at hv
      by_cases hnc : n0.nameChanged
      · simp only [hnc, if_true] at hv
        exact hv
      · simp only [hnc, Bool.false_eq_true, if_false] at hv
        rw [← (setName_fst_fields n0 e.name).1]
        exact hv
    · rw [node_setNode_other _ _ hie] at h
      exact ⟨nn, h, hv⟩

theorem updateNodeContent_post {m : Model} {e : DescEntry} {n0 : Node}
    (hid : m.node e.id = some n0) :
    ∃ nn, ((updateNodeContent m e).1).node e.id = some nn ∧
      nn.interface_flags_ = e.flags ∧ (nn.nameChanged = true ∨ nn.name_ = e.name) := by
  rw [updateNodeContent_known hid, node_setNode_same]
  refine ⟨_, rfl, rfl, ?_⟩
  by_cases hnc : n0.nameChanged
  · refine Or.inl ?_
    simp only [hnc, if_true]
  · refine Or.inr ?_
    simp only [hnc, Bool.false_eq_true, if_false]
    exact setName_fst_name n0 e.name

theorem updateNodeContent_notifs {m : Model} {e : DescEntry} {n0 : Node}
    (hid : m.node e.id = some n0) :
    (updateNodeContent m e).2 =
      (if descChange n0 e && n0.wasVisited then
        [Notif.dataChanged (nodeTarget e.id) 0 2] else []) := by
  rw [updateNodeContent_known hid]

theorem processDescEntry_skip {m : Model} {e : DescEntry}
    (hp : m.node e.parent_id = Option.none) :
    processDescEntry m e = (m, [], [e.id]) := by
  unfold processDescEntry
  rw [hp]

theorem processDescEntry_run {m : Model} {e : DescEntry} {parent : Node}
    (hp : m.node e.parent_id = some parent) :
    processDescEntry m e =
      ((updateNodeContent (createChild m e parent).1 e).1,
       (createChild m e parent).2 ++ (updateNodeContent (createChild m e parent).1 e).2,
       []) := by
  unfold processDescEntry
  rw [hp]

theorem processDescEntry_preserve {m : Model} {e : DescEntry} {i : Nat} {n : Node}
    (h : m.node i = some n) :
    ∃ nn, ((processDescEntry m e).1).node i = some nn ∧
      nn.wasVisited = n.wasVisited ∧ nn.nameChanged = n.nameChanged ∧
      nn.solutions_ = n.solutions_ ∧
      (n.nameChanged = true → nn.name_ = n.name_) ∧
      (¬ i = e.id → nn.name_ = n.name_ ∧ nn.interface_flags_ = n.interface_flags_) := by
  cases hp : m.node e.parent_id with
  | none =>
    rw [processDescEntry_skip hp]
    exact ⟨n, h, rfl, rfl, rfl, fun _ => rfl, fun _ => ⟨rfl, rfl⟩⟩
  | some parent =>
    rw [processDescEntry_run hp]
    obtain ⟨n1, h1, hf1⟩ := createChild_preserve hp h
    obtain ⟨hn1name, hn1flags, hn1vis, hn1nc, hn1sol⟩ := hf1
    obtain ⟨nn, h2, hv2, hnc2, hs2, hname2, hother2⟩ := updateNodeContent_preserve h1
    refine ⟨nn, h2, ?_, ?_, ?_, ?_, ?_⟩
    · rw [hv2, hn1vis]
    · rw [hnc2, hn1nc]
    · rw [hs2, hn1sol]
    · intro hc
      rw [hname2 (by rw [hn1nc]; exact hc), hn1name]
    · intro hie
      rw [hother2 hie]
      exact ⟨hn1name, hn1flags⟩

theorem processDescEntry_backward {m : Model} {e : DescEntry} {i : Nat} {nn : Node}
    (h : ((processDescEntry m e).1).node i = some nn) (hv : nn.wasVisited = true) :
    ∃ n, m.node i = some n ∧ n.wasVisited = true := by
  cases hp : m.node e.parent_id with
  | none =>
    rw [processDescEntry_skip hp] at h
    exact ⟨nn, h, hv⟩
  | some parent =>
    rw [processDescEntry_run hp] at h
    obtain ⟨n1, h1, hv1⟩ := updateNodeContent_backward h hv
    exact createChild_backward hp h1 hv1

theorem processDescEntry_notifs_mem {m : Model} {e : DescEntry} :
    ∀ notif ∈ (processDescEntry m e).2.1,
      (∃ np, m.node e.parent_id = some np ∧ np.wasVisited = true ∧
        notif = Notif.rowsInserted e.parent_id np.children.length) ∨
      (∃ nj, m.node e.id = some nj ∧ nj.wasVisited = true ∧
        notif = Notif.dataChanged (nodeTarget e.id) 0 2) := by
  intro notif hmem
  cases hp : m.node e.parent_id with
  | none =>
    rw [processDescEntry_skip hp] at hmem
    exact absurd hmem (List.not_mem_nil notif)
  | some parent =>
    rw [processDescEntry_run hp] at hmem
    rcases List.mem_append.mp hmem with hc | hu
    · obtain ⟨hn, hvp⟩ := createChild_notifs notif hc
      exact Or.inl ⟨parent, rfl, hvp, hn⟩
    · obtain ⟨n0, hn0⟩ := @createChild_registers m e parent
      rw [updateNodeContent_notifs hn0] at hu
      by_cases hcond : descChange n0 e && n0.wasVisited
      · rw [if_pos hcond] at hu
        have hv0 : n0.wasVisited = true := by
          have hc2 := hcond
          simp only [Bool.and_eq_true] at hc2
          exact hc2.2
        obtain ⟨nm, hnm, hvm⟩ := createChild_backward hp hn0 hv0
        refine Or.inr ⟨nm, hnm, hvm, ?_⟩
        exact List.mem_singleton.mp hu
      · rw [if_neg hcond] at hu
        exact absurd hu (List.not_mem_nil notif)

theorem processDescEntry_nochange {m : Model} {e : DescEntry} {parent n : Node}
    (hp : m.node e.parent_id = some parent) (hid : m.node e.id = some n)
    (hch : descChange n e = false) :
    processDescEntry m e = (m, [], []) := by
  rw [processDescEntry_run hp, createChild_known hid, updateNodeContent_known hid]
  obtain ⟨hname, hflags⟩ := descChange_false_iff.mp hch
  have hrec : { (if n.nameChanged then n else (n.setName e.name).1) with
      interface_flags_ := e.flags } = n := by
    by_cases hnc : n.nameChanged
    · rw [if_pos hnc, ← hflags]
    · rcases hname with hnc2 | hnm
      · exact absurd hnc2 hnc
      · rw [if_neg hnc]
        unfold Node.setName
        rw [if_pos hnm, ← hflags]
  rw [hrec, setNode_self hid, hch]
  simp

theorem processDescEntry_post {m : Model} {e : DescEntry}
    (herr : (processDescEntry m e).2.2 = []) :
    (∃ np, ((processDescEntry m e).1).node e.parent_id = some np) ∧
    (∃ nn, ((processDescEntry m e).1).node e.id = some nn ∧
      nn.interface_flags_ = e.flags ∧ (nn.nameChanged = true ∨ nn.name_ = e.name)) := by
  cases hp : m.node e.parent_id with
  | none =>
    rw [processDescEntry_skip hp] at herr
    simp at herr
  | some parent =>
    rw [processDescEntry_run hp]
    constructor
    · obtain ⟨n1, h1, _⟩ := createChild_preserve hp hp
      obtain ⟨nn, h2, _⟩ := updateNodeContent_preserve h1
      exact ⟨nn, h2⟩
    · obtain ⟨n0, hn0⟩ := @createChild_registers m e parent
      exact updateNodeContent_post hn0

/-! ### The description loop -/

theorem processDescLoop_preserve :
    ∀ (batch : List DescEntry) (m : Model) (i : Nat) (n : Node), m.node i = some n →
      ∃ nn, (processDescLoop m batch).model.node i = some nn ∧
        nn.wasVisited = n.wasVisited ∧ nn.nameChanged = n.nameChanged ∧
        nn.solutions_ = n.solutions_ ∧
        (n.nameChanged = true → nn.name_ = n.name_) ∧
        ((∀ e ∈ batch, ¬ e.id = i) →
          nn.name_ = n.name_ ∧ nn.interface_flags_ = n.interface_flags_) := by
  intro batch
  induction batch with
  | nil =>
    intro m i n h
    exact ⟨n, h, rfl, rfl, rfl, fun _ => rfl, fun _ => ⟨rfl, rfl⟩⟩
  | cons e es ih =>
    intro m i n h
    obtain ⟨n1, h1, hv1, hnc1, hs1, hname1, hother1⟩ := processDescEntry_preserve h
    obtain ⟨nn, h2, hv2, hnc2, hs2, hname2, hother2⟩ := ih (processDescEntry m e).1 i n1 h1
    refine ⟨nn, h2, ?_, ?_, ?_, ?_, ?_⟩
    · rw [hv2, hv1]
    · rw [hnc2, hnc1]
    · rw [hs2, hs1]
    · intro hc
      rw [hname2 (by rw [hnc1]; exact hc), hname1 hc]
    · intro hall
      have he : ¬ e.id = i := hall e (List.mem_cons_self e es)
      obtain ⟨ha1, ha2⟩ := hother1 (fun hh => he hh.symm)
      obtain ⟨hb1, hb2⟩ := hother2 (fun e2 he2 => hall e2 (List.mem_cons_of_mem e he2))
      exact ⟨by rw [hb1, ha1], by rw [hb2, ha2]⟩

theorem processDescLoop_backward :
    ∀ (batch : List DescEntry) (m : Model) (i : Nat) (nn : Node),
      (processDescLoop m batch).model.node i = some nn → nn.wasVisited = true →
      ∃ n, m.node i = some n ∧ n.wasVisited = true := by
  intro batch
  induction batch with
  | nil =>
    intro m i nn h hv
    exact ⟨nn, h, hv⟩
  | cons e es ih =>
    intro m i nn h hv
    obtain ⟨n1, h1, hv1⟩ := ih (processDescEntry m e).1 i nn h hv
    exact processDescEntry_backward h1 hv1

theorem processDescLoop_notifs_mem :
    ∀ (batch : List DescEntry) (m : Model), ∀ notif ∈ (processDescLoop m batch).notifs,
      (∃ p row np, notif = Notif.rowsInserted p row ∧
        m.node p = some np ∧ np.wasVisited = true) ∨
      (∃ j nj, notif = Notif.dataChanged (nodeTarget j) 0 2 ∧
        m.node j = some nj ∧ nj.wasVisited = true) := by
  intro batch
  induction batch with
  | nil =>
    intro m notif hmem
    exact absurd hmem (List.not_mem_nil notif)
  | cons e es ih =>
    intro m notif hmem
    have hmem2 : notif ∈ (processDescEntry m e).2.1 ++
        (processDescLoop (processDescEntry m e).1 es).notifs := hmem
    rcases List.mem_append.mp hmem2 with hc | hrest
    · rcases processDescEntry_notifs_mem notif hc with ⟨np, hp, hvp, hn⟩ | ⟨nj, hj, hvj, hn⟩
      · exact Or.inl ⟨e.parent_id, np.children.length, np, hn, hp, hvp⟩
      · exact Or.inr ⟨e.id, nj, hn, hj, hvj⟩
    · rcases ih (processDescEntry m e).1 notif hrest with
        ⟨p, row, np, hn, hp, hvp⟩ | ⟨j, nj, hn, hj, hvj⟩
      · obtain ⟨np0, hp0, hvp0⟩ := processDescEntry_backward hp hvp
        exact Or.inl ⟨p, row, np0, hn, hp0, hvp0⟩
      · obtain ⟨nj0, hj0, hvj0⟩ := processDescEntry_backward hj hvj
        exact Or.inr ⟨j, nj0, hn, hj0, hvj0⟩

theorem processDescLoop_nochange :
    ∀ (batch : List DescEntry) (m : Model),
      (∀ e ∈ batch, ∃ parent n, m.node e.parent_id = some parent ∧
        m.node e.id = some n ∧ descChange n e = false) →
      processDescLoop m batch = ⟨m, [], []⟩ := by
  intro batch
  induction batch with
  | nil =>
    intro m _
    rfl
  | cons e es ih =>
    intro m h
    obtain ⟨parent, n, hp, hid, hch⟩ := h e (List.mem_cons_self e es)
    have hstep := processDescEntry_nochange hp hid hch
    have hrest := ih m (fun e2 he2 => h e2 (List.mem_cons_of_mem e he2))
    show (⟨(processDescLoop (processDescEntry m e).1 es).model,
      (processDescEntry m e).2.1 ++ (processDescLoop (processDescEntry m e).1 es).notifs,
      (processDescEntry m e).2.2 ++ (processDescLoop (processDescEntry m e).1 es).errors⟩ :
        ProcResult) = ⟨m, [], []⟩
    rw [hstep, hrest]
    rfl

theorem processDescLoop_post :
    ∀ (batch : List DescEntry) (m : Model),
      (batch.map DescEntry.id).Nodup → (processDescLoop m batch).errors = [] →
      ∀ e ∈ batch, ∃ parent n,
        (processDescLoop m batch).model.node e.parent_id = some parent ∧
        (processDescLoop m batch).model.node e.id = some n ∧ descChange n e = false := by
  intro batch
  induction batch with
  | nil =>
    intro m _ _ e he
    exact absurd he (List.not_mem_nil e)
  | cons e es ih =>
    intro m hnodup herr
    rw [List.map_cons, List.nodup_cons] at hnodup
    obtain ⟨hnot, hnodup2⟩ := hnodup
    have herr2 : (processDescEntry m e).2.2 ++
        (processDescLoop (processDescEntry m e).1 es).errors = [] := herr
    obtain ⟨herrA, herrB⟩ := List.append_eq_nil.mp herr2
    intro e2 he2
    rcases List.mem_cons.mp he2 with rfl | he3
    · obtain ⟨⟨np, hnp⟩, ⟨nn, hnn, hfl, hname⟩⟩ := processDescEntry_post herrA
      have hids : ∀ e3 ∈ es, ¬ e3.id = e2.id := by
        intro e3 he3 hh
        exact hnot (List.mem_map.mpr ⟨e3, he3, hh⟩)
      obtain ⟨np2, hnp2, _⟩ := processDescLoop_preserve es (processDescEntry m e2).1
        e2.parent_id np hnp
      obtain ⟨nn2, hnn2, _, hnc2, _, hname2, hother2⟩ := processDescLoop_preserve es
        (processDescEntry m e2).1 e2.id nn hnn
      obtain ⟨hbn, hbf⟩ := hother2 hids
      refine ⟨np2, nn2, hnp2, hnn2, descChange_false_iff.mpr ⟨?_, ?_⟩⟩
      · rcases hname with hc | hm2
        · exact Or.inl (by rw [hnc2]; exact hc)
        · exact Or.inr (by rw [hbn]; exact hm2.symm)
      · rw [hbf, hfl]
    · exact ih (processDescEntry m e).1 hnodup2 herrB e2 he3

theorem processStageDescriptions_cons (m : Model) (e : DescEntry) (es : List DescEntry) :
    processStageDescriptions m (e :: es) = processDescLoop m (e :: es) := rfl

/-- C6 (amended): re-applying a description batch is a complete no-op — same
model, no notifications, no errors — provided the batch is non-empty, its
entries carry pairwise-distinct stage ids, and the first application reported
no unknown-parent errors.  (The counterexample shows the empty batch instead
re-emits the destroyed notification on every application.) -/
theorem C6_idempotent_amended (m : Model) (batch : List DescEntry) (hne : batch ≠ [])
    (hnodup : (batch.map DescEntry.id).Nodup)
    (herr : (processStageDescriptions m batch).errors = []) :
    processStageDescriptions (processStageDescriptions m batch).model batch =
      ⟨(processStageDescriptions m batch).model, [], []⟩ := by
  cases batch with
  | nil => exact absurd rfl hne
  | cons e es =>
    simp only [processStageDescriptions_cons] at herr ⊢
    exact processDescLoop_nochange (e :: es) _ (processDescLoop_post (e :: es) m hnodup herr)

/-- C6 (witness): the idempotency of a concrete one-entry batch. -/
theorem C6_idempotent_amended_witness :
    processStageDescriptions oneStageModel [⟨1, 0, "stage", InterfaceFlags.none⟩] =
      ⟨oneStageModel, [], []⟩ :=
  C6_idempotent_amended initModel [⟨1, 0, "stage", InterfaceFlags.none⟩]
    (by decide) (by decide) (by decide)

/-- C6 (counterexample): applying the empty batch twice in a row on a
populated tree emits the destroyed notification again on the second
application — not zero additional notifications as the claim states for
every batch. -/
theorem C6_counterexample :
    (processStageDescriptions (processStageDescriptions oneStageModel []).model []).notifs =
      [Notif.dataChanged (some 1) 0 2] ∧
    ¬ (processStageDescriptions
        (processStageDescriptions oneStageModel []).model []).notifs = [] := by
  decide

/-! ### Manual-rename stickiness -/

theorem node_destroyed_set (m : Model) (b : Bool) (i : Nat) :
    ({ m with destroyed := b } : Model).node i = m.node i := rfl

theorem destroyedNotifStep_preserve {m : Model} {i : Nat} {n : Node}
    (h : m.node i = some n) :
    ∃ nn, ((destroyedNotifStep m).1).node i = some nn ∧
      nn.name_ = n.name_ ∧ nn.nameChanged = n.nameChanged := by
  unfold destroyedNotifStep
  split
  · exact ⟨n, h, rfl, rfl⟩
  · next root h0 =>
    split
    · exact ⟨n, h, rfl, rfl⟩
    · next c cs hch =>
      split
      · exact ⟨n, h, rfl, rfl⟩
      · next child hc =>
        by_cases hic : i = c
        · subst hic
          rw [h] at hc
          rw [Option.some.injEq] at hc
          subst hc
          rw [node_setNode_same]
          exact ⟨_, rfl, rfl, rfl⟩
        · rw [node_setNode_other _ _ hic, h]
          exact ⟨n, rfl, rfl, rfl⟩

theorem processStageDescriptions_sticky {m : Model} {batch : List DescEntry} {i : Nat}
    {n : Node} (h : m.node i = some n) (hnc : n.nameChanged = true) :
    ∃ nn, (processStageDescriptions m batch).model.node i = some nn ∧
      nn.name_ = n.name_ ∧ nn.nameChanged = true := by
  cases batch with
  | nil =>
    have h2 : ({ m with destroyed := true } : Model).node i = some n := h
    obtain ⟨nn, h3, hn3, hc3⟩ := destroyedNotifStep_preserve h2
    exact ⟨nn, h3, hn3, by rw [hc3]; exact hnc⟩
  | cons e es =>
    rw [processStageDescriptions_cons]
    obtain ⟨nn, h2, _, hnc2, _, hname2, _⟩ := processDescLoop_preserve (e :: es) m i n h
    exact ⟨nn, h2, hname2 hnc, by rw [hnc2]; exact hnc⟩

theorem applyDescBatches_sticky :
    ∀ (batches : List (List DescEntry)) (m : Model) (i : Nat) (n : Node),
      m.node i = some n → n.nameChanged = true →
      ∃ nn, (applyDescBatches m batches).node i = some nn ∧
        nn.name_ = n.name_ ∧ nn.nameChanged = true := by
  intro batches
  induction batches with
  | nil =>
    intro m i n h hnc
    exact ⟨n, h, rfl, hnc⟩
  | cons b bs ih =>
    intro m i n h hnc
    obtain ⟨n1, h1, hname1, hnc1⟩ := processStageDescriptions_sticky h hnc
    obtain ⟨nn, h2, hname2, hnc2⟩ := ih _ i n1 h1 hnc1
    exact ⟨nn, h2, by rw [hname2, hname1], hnc2⟩

theorem setData_post {m : Model} {i : Nat} {v : String} {r : Model × List Notif}
    (h : m.setData i v = some r) :
    ∃ n2, r.1.node i = some n2 ∧ n2.name_ = v ∧ n2.nameChanged = true ∧
      r.2 = [Notif.dataChanged (nodeTarget i) 0 0] := by
  unfold Model.setData at h
  cases hid : m.node i with
  | none =>
    rw [hid] at h
    exact Option.noConfusion h
  | some n =>
    rw [hid] at h
    rw [Option.some.injEq] at h
    subst h
    rw [node_setNode_same]
    exact ⟨_, rfl, setName_fst_name n v, rfl, rfl⟩

/-- C7: once a node has been renamed through the observer-facing
`setData` (column 0, edit role), no sequence of later description batches
ever changes its displayed name: the manual-rename flag is set by `setData`,
never cleared, and suppresses every server-supplied name. -/
theorem C7_rename_sticky (m : Model) (i : Nat) (v : String) (r : Model × List Notif)
    (h : m.setData i v = some r) (batches : List (List DescEntry)) :
    ∃ nn, (applyDescBatches r.1 batches).node i = some nn ∧
      nn.name_ = v ∧ nn.nameChanged = true := by
  obtain ⟨n2, h2, hname, hnc, _⟩ := setData_post h
  obtain ⟨nn, h3, hname3, hnc3⟩ := applyDescBatches_sticky batches r.1 i n2 h2 hnc
  exact ⟨nn, h3, by rw [hname3, hname], hnc3⟩

/-- C7 (witness): stage 1 renamed to "custom", then a description batch with
a different server name; the displayed name stays "custom". -/
theorem C7_rename_sticky_witness :
    ∃ nn, (applyDescBatches
        ((oneStageModel.setData 1 "custom").getD ⟨initModel, []⟩).1
        [[⟨1, 0, "server", InterfaceFlags.none⟩]]).node 1 = some nn ∧
      nn.name_ = "custom" ∧ nn.nameChanged = true :=
  C7_rename_sticky oneStageModel 1 "custom"
    ((oneStageModel.setData 1 "custom").getD ⟨initModel, []⟩)
    (by decide) [[⟨1, 0, "server", InterfaceFlags.none⟩]]

/-- C10: renaming a node through `setData` with its current name is not a
no-op: the manual-rename flag is still set (the `setName` result is ignored)
and a `dataChanged` notification is still emitted, though the stored name is
unchanged. -/
theorem C10_redundant_rename (m : Model) (i : Nat) (n : Node) (h : m.node i = some n) :
    m.setData i n.name_ =
      some (m.setNode i { n with nameChanged := true },
        [Notif.dataChanged (nodeTarget i) 0 0]) ∧
    ∃ nn, (m.setNode i { n with nameChanged := true }).node i = some nn ∧
      nn.name_ = n.name_ ∧ nn.nameChanged = true := by
  constructor
  · unfold Model.setData
    simp only [h]
    unfold Node.setName
    rw [if_pos rfl]
  · rw [node_setNode_same]
    exact ⟨_, rfl, rfl, rfl⟩

/-- C10 (witness): the redundant rename of stage 1 with its current name
"stage". -/
theorem C10_redundant_rename_witness :
    oneStageModel.setData 1 "stage" =
      some (oneStageModel.setNode 1
          { (oneStageModel.node 1).getD (Node.fresh Option.none) with nameChanged := true },
        [Notif.dataChanged (nodeTarget 1) 0 0]) ∧
    ∃ nn, (oneStageModel.setNode 1
        { (oneStageModel.node 1).getD (Node.fresh Option.none) with
            nameChanged := true }).node 1 = some nn ∧
      nn.name_ = "stage" ∧ nn.nameChanged = true :=
  C10_redundant_rename oneStageModel 1
    ((oneStageModel.node 1).getD (Node.fresh Option.none)) (by decide)

/-! ### The empty batch -/

theorem treeData_update_visited :
    ∀ (l : List (Nat × Node)) (c : Nat) (child : Node) (v : Bool),
      lookupStage l c = some child →
      (updateStage l c { child with wasVisited := v }).map nodeData = l.map nodeData := by
  intro l c child v
  induction l with
  | nil =>
    intro h
    simp [lookupStage] at h
  | cons p l ih =>
    intro h
    obtain ⟨j, nj⟩ := p
    simp only [lookupStage] at h
    simp only [updateStage]
    by_cases hcj : c = j
    · rw [if_pos hcj] at h ⊢
      rw [Option.some.injEq] at h
      subst h
      subst hcj
      simp [nodeData]
    · rw [if_neg hcj] at h ⊢
      simp only [List.map_cons]
      rw [ih h]

theorem destroyedNotifStep_spec (m : Model) :
    (destroyedNotifStep m).1.destroyed = m.destroyed ∧
    treeData (destroyedNotifStep m).1 = treeData m ∧
    (destroyedNotifStep m).2 = Notif.dataChanged (rootRowTarget m) 0 2 := by
  unfold destroyedNotifStep rootRowTarget
  split
  · exact ⟨rfl, rfl, rfl⟩
  · next root h0 =>
    split
    · exact ⟨rfl, rfl, rfl⟩
    · next c cs hch =>
      split
      · next hc =>
        refine ⟨rfl, rfl, ?_⟩
        simp [hc]
      · next child hc =>
        refine ⟨rfl, ?_, ?_⟩
        · exact treeData_update_visited m.stages c child true hc
        · simp [hc]

/-- C9: an empty description batch marks the model destroyed, emits exactly
one data-changed notification for the root row (row 0 at top level, columns
0-2, invalid when the tree is empty), reports no errors, and leaves the
whole tree content — registry domain, parent links, child lists, names,
interface flags, rename flags and solution stores — unchanged. -/
theorem C9_empty_batch_destroys (m : Model) :
    (processStageDescriptions m []).model.destroyed = true ∧
    treeData (processStageDescriptions m []).model = treeData m ∧
    (processStageDescriptions m []).notifs = [Notif.dataChanged (rootRowTarget m) 0 2] ∧
    (processStageDescriptions m []).errors = [] := by
  obtain ⟨hd, ht, hn⟩ := destroyedNotifStep_spec { m with destroyed := true }
  refine ⟨hd, ht, ?_, rfl⟩
  show [(destroyedNotifStep { m with destroyed := true }).2] = _
  rw [hn]
  rfl

/-! ### Statistics entries -/

theorem statFinish_notifs (m : Model) (e : StatEntry) (n : Node)
    (s : RemoteSolutionModel) (c : Bool) :
    (statFinish m e n s c).2.1 =
      (if c && n.wasVisited then [Notif.dataChanged (nodeTarget e.id) 1 2] else []) := rfl

theorem processStatEntry_cases {m : Model} {e : StatEntry}
    {r : Model × List Notif × List Nat} (h : processStatEntry m e = some r) :
    (m.node e.id = Option.none ∧ r = (m, [], [e.id])) ∨
    (∃ n sols2 changed, m.node e.id = some n ∧ r = statFinish m e n sols2 changed) := by
  unfold processStatEntry at h
  split at h
  · next hid =>
    rw [Option.some.injEq] at h
    exact Or.inl ⟨hid, h.symm⟩
  · next n hid =>
    refine Or.inr ?_
    split at h
    · exact Option.noConfusion h
    · next sols1 ch1 hs1 =>
      split at h
      · exact Option.noConfusion h
      · next sols2 changed hs2 =>
        rw [Option.some.injEq] at h
        exact ⟨n, sols2, changed, hid, h.symm⟩

theorem processStatEntry_backward {m : Model} {e : StatEntry}
    {r : Model × List Notif × List Nat} (h : processStatEntry m e = some r)
    {i : Nat} {nn : Node} (h2 : r.1.node i = some nn) (hv : nn.wasVisited = true) :
    ∃ n0, m.node i = some n0 ∧ n0.wasVisited = true := by
  rcases processStatEntry_cases h with ⟨hid, hr⟩ | ⟨n, s2, ch, hid, hr⟩
  · subst hr
    exact ⟨nn, h2, hv⟩
  · subst hr
    have h3 : (m.setNode e.id { n with solutions_ := s2 }).node i = some nn := h2
    by_cases hie : i = e.id
    · subst hie
      rw [node_setNode_same] at h3
      rw [Option.some.injEq] at h3
      refine ⟨n, hid, ?_⟩
      rw [← h3] at hv
      exact hv
    · rw [node_setNode_other _ _ hie] at h3
      exact ⟨nn, h3, hv⟩

theorem processStatEntry_notifs_mem {m : Model} {e : StatEntry}
    {r : Model × List Notif × List Nat} (h : processStatEntry m e = some r) :
    ∀ notif ∈ r.2.1, ∃ nj, notif = Notif.dataChanged (nodeTarget e.id) 1 2 ∧
      m.node e.id = some nj ∧ nj.wasVisited = true := by
  intro notif hmem
  rcases processStatEntry_cases h with ⟨hid, hr⟩ | ⟨n, s2, ch, hid, hr⟩
  · subst hr
    exact absurd hmem (List.not_mem_nil notif)
  · subst hr
    rw [statFinish_notifs] at hmem
    by_cases hcond : ch && n.wasVisited
    · rw [if_pos hcond] at hmem
      refine ⟨n, List.mem_singleton.mp hmem, hid, ?_⟩
      have hc2 := hcond
      simp only [Bool.and_eq_true] at hc2
      exact hc2.2
    · rw [if_neg hcond] at hmem
      exact absurd hmem (List.not_mem_nil notif)

theorem processStatEntry_at_most_one {m : Model} {e : StatEntry}
    {r : Model × List Notif × List Nat} (h : processStatEntry m e = some r) :
    r.2.1 = [] ∨ ∃ n, m.node e.id = some n ∧ n.wasVisited = true ∧
      r.2.1 = [Notif.dataChanged (nodeTarget e.id) 1 2] := by
  rcases processStatEntry_cases h with ⟨hid, hr⟩ | ⟨n, s2, ch, hid, hr⟩
  · subst hr
    exact Or.inl rfl
  · subst hr
    rw [statFinish_notifs]
    by_cases hcond : ch && n.wasVisited
    · rw [if_pos hcond]
      have hc2 := hcond
      simp only [Bool.and_eq_true] at hc2
      exact Or.inr ⟨n, hid, hc2.2, rfl⟩
    · rw [if_neg hcond]
      exact Or.inl rfl

theorem processStageStatistics_notifs_mem :
    ∀ (batch : List StatEntry) (m : Model) (r : ProcResult),
      processStageStatistics m batch = some r →
      ∀ notif ∈ r.notifs, ∃ j nj, notif = Notif.dataChanged (nodeTarget j) 1 2 ∧
        m.node j = some nj ∧ nj.wasVisited = true := by
  intro batch
  induction batch with
  | nil =>
    intro m r h notif hmem
    unfold processStageStatistics at h
    rw [Option.some.injEq] at h
    rw [← h] at hmem
    exact absurd hmem (List.not_mem_nil notif)
  | cons e es ih =>
    intro m r h notif hmem
    unfold processStageStatistics at h
    split at h
    · exact Option.noConfusion h
    · next step hstep =>
      split at h
      · exact Option.noConfusion h
      · next rest hrest =>
        rw [Option.some.injEq] at h
        rw [← h] at hmem
        have hmem2 : notif ∈ step.2.1 ++ rest.notifs := hmem
        rcases List.mem_append.mp hmem2 with hs | hr2
        · obtain ⟨nj, hn, hj, hv⟩ := processStatEntry_notifs_mem hstep notif hs
          exact ⟨e.id, nj, hn, hj, hv⟩
        · obtain ⟨j, nj, hn, hj, hv⟩ := ih step.1 rest hrest notif hr2
          obtain ⟨nj0, hj0, hv0⟩ := processStatEntry_backward hstep hj hv
          exact ⟨j, nj0, hn, hj0, hv0⟩

/-- C8 (counterexample): the empty-batch destroyed notification is emitted
for the first root row even though its node (stage 1) was never traversed by
an observer — refuting "no change notification is ever emitted for a node
that has never been visited". -/
theorem C8_counterexample :
    (processStageDescriptions oneStageModel []).notifs =
      [Notif.dataChanged (some 1) 0 2] ∧
    (oneStageModel.node 1).map Node.wasVisited = some false := by
  decide

/-- C8 (amended): visited-gating holds for every per-entry notification —
row-insertion brackets only for already-visited parents, description
`dataChanged` notifications (any non-empty batch) and statistics
`dataChanged` notifications only for nodes already visited before the call —
and an in-place change produces exactly one notification: a single-entry
description batch on an existing node emits exactly one full-row
`dataChanged` when a change meets a visited node and nothing otherwise, and
a statistics entry emits at most one counts-columns `dataChanged`, only for
a visited node.  The empty-batch destroyed notification (see the
counterexample) is the one exception to the gating. -/
theorem C8_gating_amended :
    (∀ (m : Model) (batch : List DescEntry) (p row : Nat),
      Notif.rowsInserted p row ∈ (processStageDescriptions m batch).notifs →
        ∃ np, m.node p = some np ∧ np.wasVisited = true) ∧
    (∀ (m : Model) (batch : List DescEntry), batch ≠ [] →
      ∀ t lo hi, Notif.dataChanged t lo hi ∈ (processStageDescriptions m batch).notifs →
        lo = 0 ∧ hi = 2 ∧ ∃ j nj, t = nodeTarget j ∧ m.node j = some nj ∧
          nj.wasVisited = true) ∧
    (∀ (m : Model) (batch : List StatEntry) (r : ProcResult),
      processStageStatistics m batch = some r →
      ∀ notif ∈ r.notifs, ∃ j nj, notif = Notif.dataChanged (nodeTarget j) 1 2 ∧
        m.node j = some nj ∧ nj.wasVisited = true) ∧
    (∀ (m : Model) (e : DescEntry) (parent n : Node),
      m.node e.parent_id = some parent → m.node e.id = some n →
      (processStageDescriptions m [e]).notifs =
        (if descChange n e && n.wasVisited then
          [Notif.dataChanged (nodeTarget e.id) 0 2] else [])) ∧
    (∀ (m : Model) (e : StatEntry) (r : Model × List Notif × List Nat),
      processStatEntry m e = some r →
      r.2.1 = [] ∨ ∃ n, m.node e.id = some n ∧ n.wasVisited = true ∧
        r.2.1 = [Notif.dataChanged (nodeTarget e.id) 1 2]) := by
  refine ⟨?_, ?_, fun m batch r h => processStageStatistics_notifs_mem batch m r h, ?_,
    fun m e r h => processStatEntry_at_most_one h⟩
  · intro m batch p row hmem
    cases batch with
    | nil =>
      have hm : (processStageDescriptions m []).notifs =
          [(destroyedNotifStep { m with destroyed := true }).2] := rfl
      rw [hm, List.mem_singleton, (destroyedNotifStep_spec _).2.2] at hmem
      exact Notif.noConfusion hmem
    | cons e es =>
      rw [processStageDescriptions_cons] at hmem
      rcases processDescLoop_notifs_mem (e :: es) m _ hmem with
        ⟨p2, row2, np, hn, hp2, hv⟩ | ⟨j, nj, hn, hj, hv⟩
      · injection hn with h1 h2
        subst h1
        exact ⟨np, hp2, hv⟩
      · exact Notif.noConfusion hn
  · intro m batch hne t lo hi hmem
    cases batch with
    | nil => exact absurd rfl hne
    | cons e es =>
      rw [processStageDescriptions_cons] at hmem
      rcases processDescLoop_notifs_mem (e :: es) m _ hmem with
        ⟨p2, row2, np, hn, hp2, hv⟩ | ⟨j, nj, hn, hj, hv⟩
      · exact Notif.noConfusion hn
      · injection hn with h1 h2 h3
        exact ⟨h2, h3, j, nj, h1, hj, hv⟩
  · intro m e parent n hp hid
    rw [processStageDescriptions_cons]
    show (processDescEntry m e).2.1 ++
      (processDescLoop (processDescEntry m e).1 []).notifs = _
    have hloop : (processDescLoop (processDescEntry m e).1 []).notifs = [] := rfl
    rw [hloop, List.append_nil, processDescEntry_run hp, createChild_known hid]
    simp [updateNodeContent_notifs hid]

/-- C8 (witness): Scenario 2 — after stage 1 is traversed by an observer, a
description batch renaming it emits exactly one full-row `dataChanged` for
that row. -/
theorem C8_gating_amended_witness :
    (processStageDescriptions visitedStageModel
      [⟨1, 0, "renamed", InterfaceFlags.none⟩]).notifs =
      [Notif.dataChanged (nodeTarget 1) 0 2] := by
  have h := C8_gating_amended.2.2.2.1 visitedStageModel
    ⟨1, 0, "renamed", InterfaceFlags.none⟩
    ((visitedStageModel.node 0).getD (Node.fresh Option.none))
    ((visitedStageModel.node 1).getD (Node.fresh Option.none))
    (by decide) (by decide)
  rw [h]
  decide

end RemoteTaskModelSpec
